import Mathlib

/-!
Verification of the voting-simulation core (election/system.py,
election/fairness.py, election/utils.py) against its specification.

Candidates are modelled as natural numbers (the source uses arbitrary
sortable hashable identifiers), a ballot is a `List ℕ`, a ballot set a
`List (List ℕ)`.  Python dictionaries keyed by candidates (Counter,
defaultdict) are modelled by lists of keys in first-insertion order
together with counting functions; Python exceptions are modelled with
`Except String`.
-/

/-- The keys of a Python `Counter`/dict built by inserting the elements of a
list in order: each distinct element once, in order of first occurrence. -/
def uniqueKeys : List ℕ → List ℕ
  | [] => []
  | x :: xs => x :: (uniqueKeys xs).filter (fun y => y != x)

/-- Python's `max(keys, key=f)`: first element attaining the maximum (later
elements replace the current best only when strictly greater).  Returns
`none` on the empty list (Python raises `ValueError` there). -/
def pyArgMax {α : Type} [LinearOrder α] (f : ℕ → α) : List ℕ → Option ℕ
  | [] => none
  | x :: xs => some (xs.foldl (fun m k => if f m < f k then k else m) x)

/-- Python's `min(keys, key=f)`: first element attaining the minimum. -/
def pyArgMin {α : Type} [LinearOrder α] (f : ℕ → α) : List ℕ → Option ℕ
  | [] => none
  | x :: xs => some (xs.foldl (fun m k => if f k < f m then k else m) x)

/-- Stable insertion used by `pySort`: `x` goes after every element `y`
already placed with `le y x`. -/
def sIns {α : Type} (le : α → α → Bool) (x : α) : List α → List α
  | [] => [x]
  | y :: ys => if le y x then y :: sIns le x ys else x :: y :: ys

/-- A stable sort modelling Python's `sorted` / `list.sort` (Timsort is
stable; only stability and the ordering matter for the model). -/
def pySort {α : Type} (le : α → α → Bool) (l : List α) : List α :=
  l.foldl (fun acc x => sIns le x acc) []

/-- The list `[ballot[0] for ballot in ballots]` of first choices; `none`
models the `IndexError` raised when some ballot is empty. -/
def firstChoices : List (List ℕ) → Option (List ℕ)
  | [] => some []
  | [] :: _ => none
  | (x :: _) :: rest => (firstChoices rest).map (fun hs => x :: hs)

/-- All ordered pairs `(ballot[i], ballot[j])` with `i < j`, in the order the
double loop of `pairwise_matrix` / `ranked_pairs_winner` visits them. -/
def ballotPairs : List ℕ → List (ℕ × ℕ)
  | [] => []
  | a :: rest => rest.map (fun b => (a, b)) ++ ballotPairs rest

/-- The key set `{(a,b) : a ≠ b}` of the pairwise dictionaries, in the order
of the initialisation loop over `candidates`. -/
def pairKeys (cands : List ℕ) : List (ℕ × ℕ) :=
  cands.flatMap (fun a => (cands.filter (fun b => b != a)).map (fun b => (a, b)))

/-- The `KeyError` check of the tally loops: every within-ballot pair must be
a key of the dictionary initialised from `cands`. -/
def tallyValid (cands : List ℕ) (ballots : List (List ℕ)) : Bool :=
  ballots.all (fun bal => (ballotPairs bal).all (fun p => p ∈ pairKeys cands))

/-- Number of voters ranking `a` above `b` (one increment per occurrence of
the pair in a ballot's pair list, as in the source's `+= 1` loops). -/
def pairwiseCount (ballots : List (List ℕ)) (a b : ℕ) : ℕ :=
  (ballots.map (fun bal => (ballotPairs bal).count (a, b))).sum

/-- Well-formed ballot set: the first ballot has no duplicates and every
ballot is a permutation of it (each ballot a strict total order over the
same candidate universe). -/
def WellFormed (ballots : List (List ℕ)) : Prop :=
  match ballots with
  | [] => True
  | b0 :: _ => b0.Nodup ∧ ∀ b ∈ ballots, b.Perm b0

instance : ∀ ballots, Decidable (WellFormed ballots) := fun ballots =>
  match ballots with
  | [] => Decidable.isTrue trivial
  | b0 :: rest => by unfold WellFormed; exact inferInstance

instance {ε α : Type} [DecidableEq ε] [DecidableEq α] : DecidableEq (Except ε α) := fun x y =>
  match x, y with
  | .ok a, .ok b =>
    if h : a = b then .isTrue (by rw [h]) else .isFalse (by intro hc; cases hc; exact h rfl)
  | .error a, .error b =>
    if h : a = b then .isTrue (by rw [h]) else .isFalse (by intro hc; cases hc; exact h rfl)
  | .ok a, .error b => .isFalse (by intro hc; cases hc)
  | .error a, .ok b => .isFalse (by intro hc; cases hc)

/-- utils.remove_candidate: remove a candidate from all ballots. -/
def remove_candidate (ballots : List (List ℕ)) (candidate : ℕ) : List (List ℕ) :=
  ballots.map (fun ballot => ballot.filter (fun c => c != candidate))

/-- system.plurality_winner: first-choice tally, then `max` by count.
`Counter` iteration order is first-occurrence order. -/
def plurality_winner (ballots : List (List ℕ)) : Except String (Option ℕ) :=
  match firstChoices ballots with
  | none => .error "IndexError"
  | some fc =>
    match pyArgMax (fun c => fc.count c) (uniqueKeys fc) with
    | none => .error "ValueError"
    | some c => .ok (some c)

/-- Points a single ballot gives to candidate `c` in `borda_winner`:
`num_candidates - rank - 1` at each position holding `c` (integer
arithmetic, as in Python). `r` is the rank of the list's head. -/
def bordaBallot (m : ℕ) (r : ℕ) (ballot : List ℕ) (c : ℕ) : ℤ :=
  match ballot with
  | [] => 0
  | x :: xs => (if x = c then (m : ℤ) - r - 1 else 0) + bordaBallot m (r + 1) xs c

/-- The Borda score of candidate `c` (`m` = length of the first ballot). -/
def bordaScore (m : ℕ) (ballots : List (List ℕ)) (c : ℕ) : ℤ :=
  (ballots.map (fun b => bordaBallot m 0 b c)).sum

/-- system.borda_winner.  The `defaultdict` keys appear in order of first
touch, i.e. first occurrence in the concatenation of the ballots. -/
def borda_winner (ballots : List (List ℕ)) : Except String (Option ℕ) :=
  match ballots with
  | [] => .error "IndexError"
  | b0 :: _ =>
    match pyArgMax (bordaScore b0.length ballots) (uniqueKeys ballots.flatten) with
    | none => .error "ValueError"
    | some c => .ok (some c)

/-- system.irv_winner: repeated first-choice tally; a candidate with a strict
majority wins; otherwise the candidate with the fewest first-choice votes is
eliminated from every ballot, and the sole survivor wins once ballots have
length 1.  `votes > total_votes / 2` is the exact comparison
`total < 2 * votes`; Python's `min`/`Counter` tie-breaks are modelled by
first-occurrence key order. -/
def irv_winner (ballots : List (List ℕ)) : Except String (Option ℕ) :=
  match hfc : firstChoices ballots with
  | none => .error "IndexError"
  | some fc =>
    match (uniqueKeys fc).find? (fun c => fc.length < 2 * fc.count c) with
    | some c => .ok (some c)
    | none =>
      match hmin : pyArgMin (fun c => fc.count c) (uniqueKeys fc) with
      | none => .error "ValueError"
      | some lowest =>
        match hrm : remove_candidate ballots lowest with
        | [] => .error "IndexError"
        | b0 :: rest =>
          if b0.length = 1 then .ok (some (b0.headD 0)) else irv_winner (b0 :: rest)
termination_by (ballots.map List.length).sum
decreasing_by
  rw [← hrm]
  have huk : ∀ (l : List ℕ) (x : ℕ), x ∈ uniqueKeys l → x ∈ l := by
    intro l
    induction l with
    | nil => intro x hx; simp [uniqueKeys] at hx
    | cons y ys ih =>
      intro x hx
      simp only [uniqueKeys, List.mem_cons] at hx
      rcases hx with h | h
      · simp [h]
      · exact List.mem_cons_of_mem _ (ih x (List.mem_of_mem_filter h))
  have hfold : ∀ (xs : List ℕ) (x r : ℕ),
      xs.foldl (fun m k => if fc.count k < fc.count m then k else m) x = r →
      r = x ∨ r ∈ xs := by
    intro xs
    induction xs with
    | nil => intro x r h; left; exact h.symm
    | cons y ys ih =>
      intro x r h
      simp only [List.foldl_cons] at h
      by_cases hc : fc.count y < fc.count x
      · rw [if_pos hc] at h
        rcases ih y r h with h1 | h1
        · right; simp [h1]
        · right; exact List.mem_cons_of_mem _ h1
      · rw [if_neg hc] at h
        rcases ih x r h with h1 | h1
        · left; exact h1
        · right; exact List.mem_cons_of_mem _ h1
  have hlmem : lowest ∈ fc := by
    rcases hul : uniqueKeys fc with _ | ⟨u, us⟩
    · rw [hul] at hmin; simp only [pyArgMin] at hmin; cases hmin
    · rw [hul] at hmin; simp only [pyArgMin, Option.some.injEq] at hmin
      rcases hfold us u lowest hmin with h1 | h1
      · exact huk _ _ (hul ▸ (h1 ▸ List.mem_cons_self u us))
      · exact huk _ _ (hul ▸ List.mem_cons_of_mem _ h1)
  have hball : ∀ (bs : List (List ℕ)) (fc' : List ℕ), firstChoices bs = some fc' →
      ∀ c ∈ fc', ∃ b ∈ bs, c ∈ b := by
    intro bs
    induction bs with
    | nil =>
      intro fc' h c hc
      simp only [firstChoices, Option.some.injEq] at h
      rw [← h] at hc; cases hc
    | cons b bs' ih =>
      intro fc' h c hc
      rcases b with _ | ⟨x, xs⟩
      · simp only [firstChoices] at h; cases h
      · simp only [firstChoices] at h
        rcases hrec : firstChoices bs' with _ | hs
        · rw [hrec] at h; cases h
        · rw [hrec] at h
          simp only [Option.map_some', Option.some.injEq] at h
          subst h
          rcases List.mem_cons.mp hc with rfl | hmem
          · exact ⟨c :: xs, List.mem_cons_self _ _, List.mem_cons_self _ _⟩
          · rcases ih hs hrec c hmem with ⟨b', hb1, hb2⟩
            exact ⟨b', List.mem_cons_of_mem _ hb1, hb2⟩
  have hle : ∀ (bs : List (List ℕ)),
      ((remove_candidate bs lowest).map List.length).sum ≤ (bs.map List.length).sum := by
    intro bs
    induction bs with
    | nil => simp [remove_candidate]
    | cons b bs' ih =>
      simp only [remove_candidate, List.map_cons, List.sum_cons] at *
      exact Nat.add_le_add (List.length_filter_le _ _) ih
  have hsum : ∀ (bs : List (List ℕ)), (∃ b ∈ bs, lowest ∈ b) →
      ((remove_candidate bs lowest).map List.length).sum < (bs.map List.length).sum := by
    intro bs
    induction bs with
    | nil => rintro ⟨b, hb, _⟩; cases hb
    | cons b bs' ih =>
      rintro ⟨b', hb', hcb⟩
      simp only [remove_candidate, List.map_cons, List.sum_cons]
      rcases List.mem_cons.mp hb' with rfl | htail
      · have hflt : (b'.filter (fun c => c != lowest)).length < b'.length := by
          rw [List.length_filter_lt_length_iff_exists]
          exact ⟨lowest, hcb, by simp⟩
        exact Nat.add_lt_add_of_lt_of_le hflt (hle bs')
      · exact Nat.add_lt_add_of_le_of_lt (List.length_filter_le _ _) (ih ⟨b', htail, hcb⟩)
  exact hsum ballots (hball ballots fc hfc lowest hlmem)

/-- Number of iterations of `irv_winner`'s `while True` loop that start
executing on the given input (instrumented twin of `irv_winner`). -/
def irvRounds (ballots : List (List ℕ)) : ℕ :=
  match hfc : firstChoices ballots with
  | none => 1
  | some fc =>
    match (uniqueKeys fc).find? (fun c => fc.length < 2 * fc.count c) with
    | some _ => 1
    | none =>
      match hmin : pyArgMin (fun c => fc.count c) (uniqueKeys fc) with
      | none => 1
      | some lowest =>
        match hrm : remove_candidate ballots lowest with
        | [] => 1
        | b0 :: rest =>
          if b0.length = 1 then 1 else 1 + irvRounds (b0 :: rest)
termination_by (ballots.map List.length).sum
decreasing_by
  rw [← hrm]
  have huk : ∀ (l : List ℕ) (x : ℕ), x ∈ uniqueKeys l → x ∈ l := by
    intro l
    induction l with
    | nil => intro x hx; simp [uniqueKeys] at hx
    | cons y ys ih =>
      intro x hx
      simp only [uniqueKeys, List.mem_cons] at hx
      rcases hx with h | h
      · simp [h]
      · exact List.mem_cons_of_mem _ (ih x (List.mem_of_mem_filter h))
  have hfold : ∀ (xs : List ℕ) (x r : ℕ),
      xs.foldl (fun m k => if fc.count k < fc.count m then k else m) x = r →
      r = x ∨ r ∈ xs := by
    intro xs
    induction xs with
    | nil => intro x r h; left; exact h.symm
    | cons y ys ih =>
      intro x r h
      simp only [List.foldl_cons] at h
      by_cases hc : fc.count y < fc.count x
      · rw [if_pos hc] at h
        rcases ih y r h with h1 | h1
        · right; simp [h1]
        · right; exact List.mem_cons_of_mem _ h1
      · rw [if_neg hc] at h
        rcases ih x r h with h1 | h1
        · left; exact h1
        · right; exact List.mem_cons_of_mem _ h1
  have hlmem : lowest ∈ fc := by
    rcases hul : uniqueKeys fc with _ | ⟨u, us⟩
    · rw [hul] at hmin; simp only [pyArgMin] at hmin; cases hmin
    · rw [hul] at hmin; simp only [pyArgMin, Option.some.injEq] at hmin
      rcases hfold us u lowest hmin with h1 | h1
      · exact huk _ _ (hul ▸ (h1 ▸ List.mem_cons_self u us))
      · exact huk _ _ (hul ▸ List.mem_cons_of_mem _ h1)
  have hball : ∀ (bs : List (List ℕ)) (fc' : List ℕ), firstChoices bs = some fc' →
      ∀ c ∈ fc', ∃ b ∈ bs, c ∈ b := by
    intro bs
    induction bs with
    | nil =>
      intro fc' h c hc
      simp only [firstChoices, Option.some.injEq] at h
      rw [← h] at hc; cases hc
    | cons b bs' ih =>
      intro fc' h c hc
      rcases b with _ | ⟨x, xs⟩
      · simp only [firstChoices] at h; cases h
      · simp only [firstChoices] at h
        rcases hrec : firstChoices bs' with _ | hs
        · rw [hrec] at h; cases h
        · rw [hrec] at h
          simp only [Option.map_some', Option.some.injEq] at h
          subst h
          rcases List.mem_cons.mp hc with rfl | hmem
          · exact ⟨c :: xs, List.mem_cons_self _ _, List.mem_cons_self _ _⟩
          · rcases ih hs hrec c hmem with ⟨b', hb1, hb2⟩
            exact ⟨b', List.mem_cons_of_mem _ hb1, hb2⟩
  have hle : ∀ (bs : List (List ℕ)),
      ((remove_candidate bs lowest).map List.length).sum ≤ (bs.map List.length).sum := by
    intro bs
    induction bs with
    | nil => simp [remove_candidate]
    | cons b bs' ih =>
      simp only [remove_candidate, List.map_cons, List.sum_cons] at *
      exact Nat.add_le_add (List.length_filter_le _ _) ih
  have hsum : ∀ (bs : List (List ℕ)), (∃ b ∈ bs, lowest ∈ b) →
      ((remove_candidate bs lowest).map List.length).sum < (bs.map List.length).sum := by
    intro bs
    induction bs with
    | nil => rintro ⟨b, hb, _⟩; cases hb
    | cons b bs' ih =>
      rintro ⟨b', hb', hcb⟩
      simp only [remove_candidate, List.map_cons, List.sum_cons]
      rcases List.mem_cons.mp hb' with rfl | htail
      · have hflt : (b'.filter (fun c => c != lowest)).length < b'.length := by
          rw [List.length_filter_lt_length_iff_exists]
          exact ⟨lowest, hcb, by simp⟩
        exact Nat.add_lt_add_of_lt_of_le hflt (hle bs')
      · exact Nat.add_lt_add_of_le_of_lt (List.length_filter_le _ _) (ih ⟨b', htail, hcb⟩)
  exact hsum ballots (hball ballots fc hfc lowest hlmem)

/-- Successor list of `node` in the lock graph, modelling iteration over the
adjacency set `graph[node]` (the graph is kept as a list of directed edges). -/
def succs (g : List (ℕ × ℕ)) (v : ℕ) : List ℕ :=
  (g.filter (fun e => e.1 = v)).map Prod.snd

/-- Target nodes of a graph, used only for the termination measure of the
depth-first search. -/
def nodesOf (g : List (ℕ × ℕ)) : Finset ℕ :=
  (g.map Prod.snd).toFinset

/-- Weight of the pending stack, used only for the termination measure:
already-visited entries weigh `g.length + 1`, unvisited ones weigh `1`. -/
def dfsWeight (g : List (ℕ × ℕ)) (visited : Finset ℕ) (stack : List ℕ) : ℕ :=
  (stack.map (fun u => if u ∈ visited then g.length + 1 else 1)).sum

/-- The iterative stack-based search of `creates_cycle`: pop a node, succeed
if it is `start`, otherwise mark it visited and push its unvisited
successors.  Mirrors the `while stack:` loop of the source. -/
def dfsAux (g : List (ℕ × ℕ)) (start : ℕ) (stack : List ℕ) (visited : Finset ℕ) : Bool :=
  match stack with
  | [] => false
  | node :: rest =>
    if node = start then true
    else
      dfsAux g start
        ((succs g node).foldl
          (fun s n => if n ∈ insert node visited then s else n :: s) rest)
        (insert node visited)
termination_by (((nodesOf g ∪ stack.toFinset) \ visited).card, dfsWeight g visited stack)
decreasing_by
  rename_i hns
  rename ℕ => node
  rename List ℕ => rest
  simp only [dite_eq_ite]
  have hpush : ∀ (l : List ℕ) (V : Finset ℕ) (s : List ℕ),
      l.foldl (fun s n => if n ∈ V then s else n :: s) s
        = (l.filter (fun n => n ∉ V)).reverse ++ s := by
    intro l V
    induction l with
    | nil => intro s; simp
    | cons x xs ih =>
      intro s
      by_cases hx : x ∈ V
      · rw [List.foldl_cons, if_pos hx, ih s, List.filter_cons]
        simp [hx]
      · rw [List.foldl_cons, if_neg hx, ih (x :: s), List.filter_cons]
        simp [hx, List.reverse_cons, List.append_assoc]
  rw [hpush]
  set V' := insert node visited with hV'
  set pushed := ((succs g node).filter (fun n => n ∉ V')).reverse with hpushed
  have hsubnodes : ∀ x ∈ pushed, x ∈ nodesOf g := by
    intro x hx
    rw [hpushed, List.mem_reverse] at hx
    have hx2 := List.mem_of_mem_filter hx
    simp only [succs, List.mem_map] at hx2
    rcases hx2 with ⟨e, he, rfl⟩
    simp only [nodesOf, List.mem_toFinset, List.mem_map]
    exact ⟨e, List.mem_of_mem_filter he, rfl⟩
  have hsub : (nodesOf g ∪ (pushed ++ rest).toFinset) \ V'
      ⊆ (nodesOf g ∪ (node :: rest).toFinset) \ visited := by
    intro x hx
    rw [Finset.mem_sdiff] at hx ⊢
    rcases hx with ⟨hx1, hx2⟩
    rw [hV', Finset.mem_insert] at hx2
    push_neg at hx2
    refine ⟨?_, hx2.2⟩
    rw [Finset.mem_union] at hx1 ⊢
    rcases hx1 with h | h
    · exact Or.inl h
    · rw [List.toFinset_append, Finset.mem_union] at h
      rcases h with h | h
      · exact Or.inl (hsubnodes x (by rwa [List.mem_toFinset] at h))
      · right; simp only [List.toFinset_cons, Finset.mem_insert]
        right; exact h
  by_cases hnode : node ∈ visited
  · -- the popped node was already visited: card is ≤ and the weight drops
    have hVeq : V' = visited := by rw [hV', Finset.insert_eq_self.mpr hnode]
    have hcard : ((nodesOf g ∪ (pushed ++ rest).toFinset) \ V').card
        ≤ ((nodesOf g ∪ (node :: rest).toFinset) \ visited).card :=
      Finset.card_le_card hsub
    rcases Nat.lt_or_ge ((nodesOf g ∪ (pushed ++ rest).toFinset) \ V').card
        ((nodesOf g ∪ (node :: rest).toFinset) \ visited).card with hlt | hge
    · exact Prod.Lex.left _ _ hlt
    · have heq : ((nodesOf g ∪ (pushed ++ rest).toFinset) \ V').card
          = ((nodesOf g ∪ (node :: rest).toFinset) \ visited).card :=
        Nat.le_antisymm hcard hge
      rw [heq]
      apply Prod.Lex.right
      -- weight strictly decreases
      rw [hVeq]
      have hw1 : dfsWeight g visited (pushed ++ rest)
          = dfsWeight g visited pushed + dfsWeight g visited rest := by
        simp [dfsWeight]
      have hw2 : dfsWeight g visited pushed = pushed.length := by
        rw [dfsWeight]
        have : ∀ u ∈ pushed, (if u ∈ visited then g.length + 1 else 1) = 1 := by
          intro u hu
          rw [hpushed, List.mem_reverse] at hu
          have := List.of_mem_filter hu
          simp only [hV', Finset.mem_insert, not_or, decide_eq_true_eq] at this
          rw [if_neg this.2]
        calc (pushed.map (fun u => if u ∈ visited then g.length + 1 else 1)).sum
            = (pushed.map (fun _ => 1)).sum := by
              apply congrArg
              exact List.map_congr_left this
          _ = pushed.length := by simp
      have hw3 : pushed.length ≤ g.length := by
        rw [hpushed, List.length_reverse]
        calc ((succs g node).filter (fun n => n ∉ V')).length
            ≤ (succs g node).length := List.length_filter_le _ _
          _ ≤ g.length := by
              rw [succs, List.length_map]
              exact List.length_filter_le _ _
      have hw4 : dfsWeight g visited (node :: rest)
          = (g.length + 1) + dfsWeight g visited rest := by
        simp [dfsWeight, hnode]
      rw [hw1, hw4]
      have : dfsWeight g visited pushed ≤ g.length := le_trans (le_of_eq hw2) hw3
      omega
  · -- freshly visited node: the uncovered-card strictly decreases
    apply Prod.Lex.left
    have hmemA : node ∈ (nodesOf g ∪ (node :: rest).toFinset) \ visited := by
      rw [Finset.mem_sdiff, Finset.mem_union]
      exact ⟨Or.inr (by simp), hnode⟩
    have hsub2 : (nodesOf g ∪ (pushed ++ rest).toFinset) \ V'
        ⊆ ((nodesOf g ∪ (node :: rest).toFinset) \ visited).erase node := by
      intro x hx
      rw [Finset.mem_erase]
      have hx2 := hx
      rw [Finset.mem_sdiff, hV'] at hx2
      refine ⟨?_, hsub hx⟩
      intro hxe
      exact hx2.2 (by rw [hxe]; exact Finset.mem_insert_self _ _)
    calc ((nodesOf g ∪ (pushed ++ rest).toFinset) \ V').card
        ≤ (((nodesOf g ∪ (node :: rest).toFinset) \ visited).erase node).card :=
          Finset.card_le_card hsub2
      _ < ((nodesOf g ∪ (node :: rest).toFinset) \ visited).card :=
          Finset.card_erase_lt_of_mem hmemA

/-- system.ranked_pairs_winner.creates_cycle: would adding the edge
`start → fin` close a cycle, i.e. can `fin` already reach `start`? -/
def creates_cycle (start fin : ℕ) (graph : List (ℕ × ℕ)) : Bool :=
  dfsAux graph start [fin] ∅

/-- The pair list of `ranked_pairs_winner`: for every ordered pair `(a,b)` of
distinct candidates with `a_over_b > b_over_a`, the triple
`(a, b, margin)`, in the order of the double loop. -/
def rpPairsRaw (cands : List ℕ) (ballots : List (List ℕ)) : List (ℕ × ℕ × ℕ) :=
  cands.flatMap (fun a =>
    (cands.filter (fun b => b != a)).filterMap (fun b =>
      if pairwiseCount ballots b a < pairwiseCount ballots a b then
        some (a, b, pairwiseCount ballots a b - pairwiseCount ballots b a)
      else none))

/-- The sort `pairs.sort(key=lambda x: -x[2])`: stable sort by decreasing
margin. -/
def rpPairs (cands : List ℕ) (ballots : List (List ℕ)) : List (ℕ × ℕ × ℕ) :=
  pySort (fun x y => y.2.2 ≤ x.2.2) (rpPairsRaw cands ballots)

/-- The edge-locking loop of `ranked_pairs_winner`: lock `winner → loser`
unless that would create a cycle. -/
def lockPairs (ps : List (ℕ × ℕ × ℕ)) : List (ℕ × ℕ) :=
  ps.foldl (fun locked p =>
    if creates_cycle p.1 p.2.1 locked then locked else (p.1, p.2.1) :: locked) []

/-- Number of locked edges into `c` (the `incoming` dictionary). -/
def inDeg (locked : List (ℕ × ℕ)) (c : ℕ) : ℕ :=
  locked.countP (fun e => e.2 = c)

/-- system.ranked_pairs_winner: pairwise tally, pairs sorted by margin,
greedy cycle-free locking, then the first candidate with no incoming locked
edge (`none` if there is no such candidate). -/
def ranked_pairs_winner (ballots : List (List ℕ)) : Except String (Option ℕ) :=
  match ballots with
  | [] => .ok none
  | b0 :: _ =>
    if tallyValid b0 ballots then
      .ok ((b0.filter (fun c => inDeg (lockPairs (rpPairs b0 ballots)) c = 0)).head?)
    else .error "KeyError"

/-- fairness.pairwise_matrix: dictionary from ordered candidate pairs to
head-to-head counts, as an association list in key-insertion order. -/
def pairwise_matrix (ballots : List (List ℕ)) : Except String (List ((ℕ × ℕ) × ℕ)) :=
  match ballots with
  | [] => .ok []
  | b0 :: _ =>
    if tallyValid b0 ballots then
      .ok ((pairKeys b0).map (fun p => (p, pairwiseCount ballots p.1 p.2)))
    else .error "KeyError"

/-- Python's `matrix.get(key, 0)` on the association-list model of the
matrix. -/
def matrixGet (M : List ((ℕ × ℕ) × ℕ)) (k : ℕ × ℕ) : ℕ :=
  (M.lookup k).getD 0

/-- fairness.find_condorcet_winner: first candidate (in sorted order) whose
tally strictly beats every opponent's reverse tally; `none` when the matrix
is empty or no candidate beats all others. -/
def find_condorcet_winner (ballots : List (List ℕ)) : Except String (Option ℕ) :=
  match pairwise_matrix ballots with
  | .error e => .error e
  | .ok M =>
    if M.isEmpty then .ok none
    else
      .ok ((pySort (fun a b => a ≤ b)
              (uniqueKeys (M.flatMap (fun kv => [kv.1.1, kv.1.2])))).find?
        (fun c => (pySort (fun a b => a ≤ b)
              (uniqueKeys (M.flatMap (fun kv => [kv.1.1, kv.1.2])))).all
          (fun o => o = c || matrixGet M (o, c) < matrixGet M (c, o))))

/-- fairness.satisfaction_score: average of `(n-1-rank)/(n-1)` over the
ballots, where `rank` is the winner's position.  `n = 1` gives Python's
`ZeroDivisionError`, a winner missing from some ballot a `ValueError`. -/
def satisfaction_score (rule : List (List ℕ) → Except String (Option ℕ))
    (ballots : List (List ℕ)) : Except String ℚ :=
  match ballots with
  | [] => .ok 0
  | b0 :: _ =>
    match rule ballots with
    | .error e => .error e
    | .ok none => .ok 0
    | .ok (some w) =>
      if ballots.all (fun b => w ∈ b) then
        if b0.length = 1 then .error "ZeroDivisionError"
        else
          .ok ((ballots.map (fun b =>
              ((b0.length : ℚ) - 1 - (b.indexOf w : ℕ)) / ((b0.length : ℚ) - 1))).sum
            / (ballots.length : ℚ))
      else .error "ValueError"

/-- fairness.condorcet_compliance: `none` when no Condorcet winner exists,
otherwise whether the rule picks the Condorcet winner. -/
def condorcet_compliance (rule : List (List ℕ) → Except String (Option ℕ))
    (ballots : List (List ℕ)) : Except String (Option Bool) :=
  match find_condorcet_winner ballots with
  | .error e => .error e
  | .ok none => .ok none
  | .ok (some cw) =>
    match rule ballots with
    | .error e => .error e
    | .ok w => .ok (some (w = some cw))

/-- The in-place promotion `b[pos], b[pos-1] = b[pos-1], b[pos]` applied to
ballot `b` at the winner's position. -/
def swapUp (b : List ℕ) (w : ℕ) : List ℕ :=
  (b.set (b.indexOf w) (b.getD (b.indexOf w - 1) 0)).set (b.indexOf w - 1) w

/-- The promotion applied to the fresh deep copy: ballot `i` gets the winner
moved up one spot, all other ballots are unchanged. -/
def promoteAt (ballots : List (List ℕ)) (i : ℕ) (w : ℕ) : List (List ℕ) :=
  ballots.set i (swapUp (ballots.getD i []) w)

/-- The `for _ in range(trials)` loop of `monotonicity_violation_rate`:
`k` trials remain, `t` indexes the random stream, the result is the number
of violations counted before the loop ends (`break` included). -/
def mvLoop (rule : List (List ℕ) → Except String (Option ℕ))
    (ballots : List (List ℕ)) (w : ℕ) (rng : ℕ → ℕ) :
    ℕ → ℕ → Except String ℕ
  | 0, _ => .ok 0
  | k + 1, t =>
    if ballots.all (fun b => w ∈ b) then
      match (List.range ballots.length).filter
          (fun i => 0 < (ballots.getD i []).indexOf w) with
      | [] => .ok 0
      | i0 :: is =>
        match rule (promoteAt ballots ((i0 :: is).getD (rng t % (i0 :: is).length) 0) w) with
        | .error e => .error e
        | .ok nw =>
          match mvLoop rule ballots w rng k (t + 1) with
          | .error e => .error e
          | .ok rest => .ok ((if nw ≠ some w then 1 else 0) + rest)
    else .error "ValueError"

/-- fairness.monotonicity_violation_rate: violations divided by
`max(1, trials)`; randomness is an explicit stream `rng`, trial `t` picking
element `rng t % len(idxs)` of the eligible-ballot index list. -/
def monotonicity_violation_rate (rule : List (List ℕ) → Except String (Option ℕ))
    (ballots : List (List ℕ)) (trials : ℕ) (rng : ℕ → ℕ) : Except String ℚ :=
  match ballots with
  | [] => .ok 0
  | _ :: _ =>
    match rule ballots with
    | .error e => .error e
    | .ok none => .ok 0
    | .ok (some w) =>
      match mvLoop rule ballots w rng trials 0 with
      | .error e => .error e
      | .ok v => .ok ((v : ℚ) / (max 1 trials : ℕ))

/-- Reachability along the edges of a lock graph. -/
def Reaches (g : List (ℕ × ℕ)) (a b : ℕ) : Prop :=
  Relation.ReflTransGen (fun x y => (x, y) ∈ g) a b

/-- A lock graph is acyclic when no candidate reaches itself in at least one
step. -/
def Acyclic (g : List (ℕ × ℕ)) : Prop :=
  ∀ c, ¬ Relation.TransGen (fun x y => (x, y) ∈ g) c c

theorem sIns_perm {α : Type} (le : α → α → Bool) (x : α) (l : List α) :
    (sIns le x l).Perm (x :: l) := by
  induction l with
  | nil => exact List.Perm.refl _
  | cons y ys ih =>
    rw [sIns]
    by_cases h : le y x = true
    · rw [if_pos h]
      exact (ih.cons y).trans (List.Perm.swap x y ys)
    · rw [if_neg h]

theorem pySort_perm {α : Type} (le : α → α → Bool) (l : List α) :
    (pySort le l).Perm l := by
  have key : ∀ (l acc : List α), (l.foldl (fun acc x => sIns le x acc) acc).Perm (acc ++ l) := by
    intro l
    induction l with
    | nil => intro acc; simp
    | cons x xs ih =>
      intro acc
      rw [List.foldl_cons]
      refine (ih (sIns le x acc)).trans ?_
      refine (List.Perm.append_right xs (sIns_perm le x acc)).trans ?_
      exact (@List.perm_middle _ x acc xs).symm
  simpa using key l []

theorem mem_pySort {α : Type} (le : α → α → Bool) (l : List α) (x : α) :
    x ∈ pySort le l ↔ x ∈ l :=
  (pySort_perm le l).mem_iff

theorem mem_of_mem_uniqueKeys {l : List ℕ} {x : ℕ} (h : x ∈ uniqueKeys l) : x ∈ l := by
  induction l with
  | nil => simpa [uniqueKeys] using h
  | cons y ys ih =>
    simp only [uniqueKeys, List.mem_cons] at h
    rcases h with h | h
    · simp [h]
    · exact List.mem_cons_of_mem _ (ih (List.mem_of_mem_filter h))

theorem mem_uniqueKeys_of_mem {l : List ℕ} {x : ℕ} (h : x ∈ l) : x ∈ uniqueKeys l := by
  induction l with
  | nil => cases h
  | cons y ys ih =>
    rw [uniqueKeys]
    rcases List.mem_cons.mp h with rfl | h
    · exact List.mem_cons_self _ _
    · by_cases hxy : x = y
      · rw [hxy]; exact List.mem_cons_self _ _
      · exact List.mem_cons_of_mem _ (List.mem_filter.mpr ⟨ih h, by simp [hxy]⟩)

theorem mem_uniqueKeys {l : List ℕ} {x : ℕ} : x ∈ uniqueKeys l ↔ x ∈ l :=
  ⟨mem_of_mem_uniqueKeys, mem_uniqueKeys_of_mem⟩

theorem firstChoices_cons {b : List ℕ} {bs : List (List ℕ)} {x : ℕ} :
    firstChoices ((x :: b) :: bs) = (firstChoices bs).map (fun hs => x :: hs) := rfl

theorem firstChoices_isSome (bs : List (List ℕ)) (h : ∀ b ∈ bs, b ≠ []) :
    ∃ fc, firstChoices bs = some fc ∧ fc.length = bs.length ∧
      ∀ i, i < bs.length → ∃ b t, bs.get? i = some b ∧ b = fc.getD i 0 :: t := by
  induction bs with
  | nil => exact ⟨[], rfl, rfl, fun i hi => absurd hi (by simp)⟩
  | cons b bs' ih =>
    rcases b with _ | ⟨x, xs⟩
    · exact absurd rfl (h [] (List.mem_cons_self _ _))
    · rcases ih (fun b hb => h b (List.mem_cons_of_mem _ hb)) with ⟨fc, hfc, hlen, hget⟩
      refine ⟨x :: fc, ?_, by simp [hlen], ?_⟩
      · rw [firstChoices_cons, hfc]; rfl
      · intro i hi
        match i with
        | 0 => exact ⟨x :: xs, xs, rfl, rfl⟩
        | Nat.succ j =>
          simp only [List.length_cons, Nat.succ_lt_succ_iff] at hi
          rcases hget j hi with ⟨b', t, hb', hbt⟩
          exact ⟨b', t, hb', hbt⟩

theorem firstChoices_mem (bs : List (List ℕ)) (fc : List ℕ)
    (h : firstChoices bs = some fc) : ∀ c ∈ fc, ∃ b ∈ bs, ∃ t, b = c :: t := by
  induction bs generalizing fc with
  | nil =>
    simp only [firstChoices, Option.some.injEq] at h
    intro c hc; rw [← h] at hc; cases hc
  | cons b bs' ih =>
    rcases b with _ | ⟨x, xs⟩
    · simp only [firstChoices] at h; cases h
    · rw [firstChoices_cons] at h
      rcases hrec : firstChoices bs' with _ | hs
      · rw [hrec] at h; cases h
      · rw [hrec] at h
        simp only [Option.map_some', Option.some.injEq] at h
        subst h
        intro c hc
        rcases List.mem_cons.mp hc with rfl | hmem
        · exact ⟨c :: xs, List.mem_cons_self _ _, xs, rfl⟩
        · rcases ih hs hrec c hmem with ⟨b', hb1, t, hb2⟩
          exact ⟨b', List.mem_cons_of_mem _ hb1, t, hb2⟩

theorem ballotPairs_mem {l : List ℕ} {x y : ℕ} (h : (x, y) ∈ ballotPairs l) :
    x ∈ l ∧ y ∈ l := by
  induction l with
  | nil => cases h
  | cons a rest ih =>
    simp only [ballotPairs, List.mem_append, List.mem_map] at h
    rcases h with ⟨b, hb, he⟩ | h
    · rcases Prod.mk.injEq .. ▸ he with ⟨rfl, rfl⟩
      exact ⟨List.mem_cons_self _ _, List.mem_cons_of_mem _ hb⟩
    · rcases ih h with ⟨h1, h2⟩
      exact ⟨List.mem_cons_of_mem _ h1, List.mem_cons_of_mem _ h2⟩

theorem ballotPairs_ne {l : List ℕ} (hn : l.Nodup) {x y : ℕ}
    (h : (x, y) ∈ ballotPairs l) : x ≠ y := by
  induction l with
  | nil => cases h
  | cons a rest ih =>
    rcases List.nodup_cons.mp hn with ⟨ha, hrest⟩
    simp only [ballotPairs, List.mem_append, List.mem_map] at h
    rcases h with ⟨b, hb, he⟩ | h
    · rcases Prod.mk.injEq .. ▸ he with ⟨rfl, rfl⟩
      intro hxy; rw [hxy] at ha; exact ha hb
    · exact ih hrest h

theorem ballotPairs_total {l : List ℕ} (hn : l.Nodup) {a b : ℕ}
    (ha : a ∈ l) (hb : b ∈ l) (hab : a ≠ b) :
    (a, b) ∈ ballotPairs l ∨ (b, a) ∈ ballotPairs l := by
  induction l with
  | nil => cases ha
  | cons h t ih =>
    rcases List.nodup_cons.mp hn with ⟨hh, ht⟩
    rcases List.mem_cons.mp ha with rfl | hat
    · have hbt : b ∈ t := by
        rcases List.mem_cons.mp hb with rfl | h'
        · exact absurd rfl hab
        · exact h'
      left
      simp only [ballotPairs, List.mem_append, List.mem_map]
      exact Or.inl ⟨b, hbt, rfl⟩
    · rcases List.mem_cons.mp hb with rfl | hbt
      · right
        simp only [ballotPairs, List.mem_append, List.mem_map]
        exact Or.inl ⟨a, hat, rfl⟩
      · rcases ih ht hat hbt with h' | h'
        · left; simp only [ballotPairs, List.mem_append]; exact Or.inr h'
        · right; simp only [ballotPairs, List.mem_append]; exact Or.inr h'

theorem ballotPairs_antisymm {l : List ℕ} (hn : l.Nodup) {a b : ℕ}
    (h : (a, b) ∈ ballotPairs l) : (b, a) ∉ ballotPairs l := by
  induction l with
  | nil => cases h
  | cons x t ih =>
    rcases List.nodup_cons.mp hn with ⟨hx, ht⟩
    simp only [ballotPairs, List.mem_append, List.mem_map] at h ⊢
    rcases h with ⟨c, hc, he⟩ | h
    · rcases Prod.mk.injEq .. ▸ he with ⟨rfl, rfl⟩
      rintro (⟨d, hd, he2⟩ | h2)
      · rcases Prod.mk.injEq .. ▸ he2 with ⟨rfl, _⟩
        exact hx hc
      · exact hx (ballotPairs_mem h2).2
    · rintro (⟨d, hd, he2⟩ | h2)
      · rcases Prod.mk.injEq .. ▸ he2 with ⟨rfl, rfl⟩
        exact hx (ballotPairs_mem h).2
      · exact ih ht h h2

theorem ballotPairs_nodup {l : List ℕ} (hn : l.Nodup) : (ballotPairs l).Nodup := by
  induction l with
  | nil => exact List.nodup_nil
  | cons a rest ih =>
    rcases List.nodup_cons.mp hn with ⟨ha, hrest⟩
    rw [ballotPairs]
    refine List.Nodup.append ?_ (ih hrest) ?_
    · exact hrest.map (fun x y h => by
        rcases Prod.mk.injEq .. ▸ h with ⟨_, h2⟩; exact h2)
    · intro p hp1 hp2
      rcases List.mem_map.mp hp1 with ⟨b, hb, rfl⟩
      exact ha (ballotPairs_mem hp2).1

theorem pairKeys_mem_iff {cands : List ℕ} {a b : ℕ} :
    (a, b) ∈ pairKeys cands ↔ a ∈ cands ∧ b ∈ cands ∧ b ≠ a := by
  constructor
  · intro h
    simp only [pairKeys, List.mem_flatMap, List.mem_map] at h
    rcases h with ⟨a', ha', b', hb', he⟩
    rcases Prod.mk.injEq .. ▸ he with ⟨rfl, rfl⟩
    rcases List.mem_filter.mp hb' with ⟨hbm, hbne⟩
    exact ⟨ha', hbm, by simpa using hbne⟩
  · rintro ⟨ha, hb, hba⟩
    simp only [pairKeys, List.mem_flatMap, List.mem_map]
    exact ⟨a, ha, b, List.mem_filter.mpr ⟨hb, by simpa using hba⟩, rfl⟩

theorem wf_tallyValid {ballots : List (List ℕ)} {b0 : List ℕ} (hW : WellFormed ballots)
    (h0 : ballots.head? = some b0) : tallyValid b0 ballots = true := by
  rcases ballots with _ | ⟨c0, rest⟩
  · cases h0
  · rcases Option.some.inj h0 with rfl
    rcases hW with ⟨hnd, hperm⟩
    rw [tallyValid, List.all_eq_true]
    intro bal hbal
    rw [List.all_eq_true]
    intro p hp
    have hbperm := hperm bal hbal
    have hbnd : bal.Nodup := hbperm.nodup_iff.mpr hnd
    rcases p with ⟨x, y⟩
    rcases ballotPairs_mem hp with ⟨hx, hy⟩
    have hxy := ballotPairs_ne hbnd hp
    exact decide_eq_true (pairKeys_mem_iff.mpr
      ⟨hbperm.mem_iff.mp hx, hbperm.mem_iff.mp hy, fun h => hxy h.symm⟩)

theorem list_sum_map_add {α : Type} (l : List α) (f g : α → ℕ) :
    (l.map (fun x => f x + g x)).sum = (l.map f).sum + (l.map g).sum := by
  induction l with
  | nil => rfl
  | cons x xs ih => simp only [List.map_cons, List.sum_cons, ih]; omega

theorem list_sum_map_one {α : Type} (l : List α) :
    (l.map (fun _ => 1)).sum = l.length := by
  induction l with
  | nil => rfl
  | cons x xs ih =>
    simp only [List.map_cons, List.sum_cons, List.length_cons, ih]
    omega

theorem lookup_map_self {keys : List (ℕ × ℕ)} {f : ℕ × ℕ → ℕ} {k : ℕ × ℕ}
    (h : k ∈ keys) : (keys.map (fun p => (p, f p))).lookup k = some (f k) := by
  induction keys with
  | nil => cases h
  | cons p rest ih =>
    rw [List.map_cons, List.lookup_cons]
    by_cases hk : k = p
    · subst hk; simp
    · have : (k == p) = false := by simpa using hk
      rw [this]
      exact ih (by rcases List.mem_cons.mp h with h' | h'; exact absurd h' hk; exact h')

theorem count_pair_eq_one {l : List (ℕ × ℕ)} (hnd : l.Nodup) {p : ℕ × ℕ} (h : p ∈ l) :
    l.count p = 1 := by
  induction l with
  | nil => cases h
  | cons q rest ih =>
    rcases List.nodup_cons.mp hnd with ⟨hq, hrest⟩
    rcases List.mem_cons.mp h with rfl | h1
    · rw [List.count_cons_self, List.count_eq_zero.mpr hq]
    · rw [List.count_cons_of_ne (fun he => hq (by rw [← he]; exact h1)), ih hrest h1]

theorem count_complementary {bal : List ℕ} (hn : bal.Nodup) {a b : ℕ}
    (ha : a ∈ bal) (hb : b ∈ bal) (hab : a ≠ b) :
    (ballotPairs bal).count (a, b) + (ballotPairs bal).count (b, a) = 1 := by
  have hnd := ballotPairs_nodup hn
  rcases ballotPairs_total hn ha hb hab with h | h
  · have h1 : (ballotPairs bal).count (a, b) = 1 := count_pair_eq_one hnd h
    have h2 : (ballotPairs bal).count (b, a) = 0 :=
      List.count_eq_zero.mpr (ballotPairs_antisymm hn h)
    omega
  · have h1 : (ballotPairs bal).count (b, a) = 1 := count_pair_eq_one hnd h
    have h2 : (ballotPairs bal).count (a, b) = 0 :=
      List.count_eq_zero.mpr (fun hc => ballotPairs_antisymm hn hc h)
    omega

theorem pairwiseCount_complementary {ballots : List (List ℕ)} {b0 : List ℕ}
    (hW : WellFormed ballots) (h0 : ballots.head? = some b0) {a b : ℕ}
    (ha : a ∈ b0) (hb : b ∈ b0) (hab : a ≠ b) :
    pairwiseCount ballots a b + pairwiseCount ballots b a = ballots.length := by
  rcases ballots with _ | ⟨c0, rest⟩
  · cases h0
  · rcases Option.some.inj h0 with rfl
    rcases hW with ⟨hnd, hperm⟩
    rw [pairwiseCount, pairwiseCount, ← list_sum_map_add, ← list_sum_map_one (c0 :: rest)]
    apply congrArg
    apply List.map_congr_left
    intro bal hbal
    have hbperm := hperm bal hbal
    exact count_complementary (hbperm.nodup_iff.mpr hnd)
      (hbperm.mem_iff.mpr ha) (hbperm.mem_iff.mpr hb) hab

/-- C7: for every well-formed ballot set and every ordered pair of distinct
candidates of its universe, the matrix built by `pairwise_matrix` satisfies
`tally(a,b) + tally(b,a) = number of ballots`. -/
theorem C7_pairwise_matrix_complementary (ballots : List (List ℕ)) (b0 : List ℕ) (a b : ℕ)
    (hW : WellFormed ballots) (h0 : ballots.head? = some b0)
    (ha : a ∈ b0) (hb : b ∈ b0) (hab : a ≠ b) :
    ∃ M, pairwise_matrix ballots = .ok M ∧
      matrixGet M (a, b) + matrixGet M (b, a) = ballots.length := by
  rcases ballots with _ | ⟨c0, rest⟩
  · cases h0
  · obtain rfl : c0 = b0 := Option.some.inj h0
    have hv : tallyValid c0 (c0 :: rest) = true := wf_tallyValid hW rfl
    refine ⟨(pairKeys c0).map (fun p => (p, pairwiseCount (c0 :: rest) p.1 p.2)), ?_, ?_⟩
    · simp only [pairwise_matrix]
      rw [if_pos hv]
    · have hk1 : (a, b) ∈ pairKeys c0 := pairKeys_mem_iff.mpr ⟨ha, hb, fun h => hab h.symm⟩
      have hk2 : (b, a) ∈ pairKeys c0 := pairKeys_mem_iff.mpr ⟨hb, ha, hab⟩
      rw [matrixGet, matrixGet, lookup_map_self hk1, lookup_map_self hk2]
      simp only [Option.getD_some]
      exact pairwiseCount_complementary hW rfl ha hb hab

/-- C7 witness: a concrete two-candidate election. -/
theorem C7_witness :
    WellFormed [[0,1],[1,0],[0,1]] ∧ ([[0,1],[1,0],[0,1]] : List (List ℕ)).head? = some [0,1] ∧
      (0 : ℕ) ∈ [0,1] ∧ (1 : ℕ) ∈ [0,1] ∧ (0 : ℕ) ≠ 1 ∧
      ∃ M, pairwise_matrix [[0,1],[1,0],[0,1]] = .ok M ∧
        matrixGet M (0, 1) + matrixGet M (1, 0) = [[0,1],[1,0],[0,1]].length :=
  ⟨by decide, rfl, by decide, by decide, by decide,
    C7_pairwise_matrix_complementary [[0,1],[1,0],[0,1]] [0,1] 0 1
      (by decide) rfl (by decide) (by decide) (by decide)⟩

/-- C5 counterexample: `plurality_winner` on the empty ballot set raises
`ValueError` (max of an empty sequence) rather than returning none. -/
theorem C5_counterexample : ¬ (plurality_winner [] = Except.ok none) := by decide

/-- C5 (amended): on the empty ballot set, `ranked_pairs_winner` returns
none, while `plurality_winner` and `irv_winner` raise `ValueError` and
`borda_winner` raises `IndexError`. -/
theorem C5_empty_ballot_behaviour :
    plurality_winner [] = .error "ValueError" ∧
    borda_winner [] = .error "IndexError" ∧
    irv_winner [] = .error "ValueError" ∧
    ranked_pairs_winner [] = .ok none := by
  refine ⟨by decide, by decide, ?_, by decide⟩
  simp [irv_winner, firstChoices, uniqueKeys, pyArgMin]

theorem mem_succs {g : List (ℕ × ℕ)} {v u : ℕ} : u ∈ succs g v ↔ (v, u) ∈ g := by
  constructor
  · intro h
    rcases List.mem_map.mp h with ⟨e, he, rfl⟩
    rcases List.mem_filter.mp he with ⟨hg, hv⟩
    have : e.1 = v := by simpa using hv
    rw [← this]
    exact hg
  · intro h
    exact List.mem_map.mpr ⟨(v, u), List.mem_filter.mpr ⟨h, by simp⟩, rfl⟩

theorem foldl_push_eq (l : List ℕ) (V : Finset ℕ) (s : List ℕ) :
    l.foldl (fun s n => if n ∈ V then s else n :: s) s
      = (l.filter (fun n => n ∉ V)).reverse ++ s := by
  induction l generalizing s with
  | nil => simp
  | cons x xs ih =>
    by_cases hx : x ∈ V
    · rw [List.foldl_cons, if_pos hx, ih s, List.filter_cons]
      simp [hx]
    · rw [List.foldl_cons, if_neg hx, ih (x :: s), List.filter_cons]
      simp [hx, List.reverse_cons, List.append_assoc]

theorem dfsAux_true_reaches (g : List (ℕ × ℕ)) (start : ℕ) :
    ∀ stack visited, dfsAux g start stack visited = true →
      ∃ u ∈ stack, Reaches g u start := by
  intro stack visited
  induction stack, visited using dfsAux.induct g start with
  | case1 visited =>
    intro h
    simp only [dfsAux] at h
    cases h
  | case2 visited rest =>
    intro _
    exact ⟨start, List.mem_cons_self _ _, Relation.ReflTransGen.refl⟩
  | case3 visited node rest hne ih =>
    intro h
    simp only [dfsAux, if_neg hne, dite_eq_ite] at h
    rcases ih h with ⟨u, hu, hr⟩
    simp only [dite_eq_ite] at hu
    rw [foldl_push_eq, List.mem_append, List.mem_reverse] at hu
    rcases hu with hu | hu
    · have hsucc : u ∈ succs g node := List.mem_of_mem_filter hu
      exact ⟨node, List.mem_cons_self _ _,
        Relation.ReflTransGen.head (mem_succs.mp hsucc) hr⟩
    · exact ⟨u, List.mem_cons_of_mem _ hu, hr⟩

theorem dfsAux_false_no_reach (g : List (ℕ × ℕ)) (start : ℕ) :
    ∀ stack visited, dfsAux g start stack visited = false →
      start ∉ visited →
      (∀ v ∈ visited, ∀ w, (v, w) ∈ g → w ∈ visited ∨ w ∈ stack) →
      ∀ u, (u ∈ stack ∨ u ∈ visited) → ¬ Reaches g u start := by
  intro stack visited
  induction stack, visited using dfsAux.induct g start with
  | case1 visited =>
    intro _ hs hclosed u hu hreach
    rcases hu with hu | hu
    · cases hu
    · have key : ∀ x, Reaches g x start → x ∈ visited → False := by
        intro x hx
        induction hx using Relation.ReflTransGen.head_induction_on with
        | refl => exact hs
        | head hxy _ ih2 =>
          intro hxv
          rename_i x' y' _
          rcases hclosed x' hxv y' hxy with h' | h'
          · exact ih2 h'
          · cases h'
      exact key u hreach hu
  | case2 visited rest =>
    intro h
    simp [dfsAux] at h
  | case3 visited node rest hne ih =>
    intro h hs hclosed u hu
    simp only [dfsAux, if_neg hne, dite_eq_ite] at h
    have hsub_rest : ∀ w, w ∈ rest →
        w ∈ (succs g node).foldl (fun s n => if n ∈ insert node visited then s else n :: s) rest := by
      intro w hw
      rw [foldl_push_eq, List.mem_append]
      exact Or.inr hw
    have hs' : start ∉ insert node visited := by
      rw [Finset.mem_insert]
      push_neg
      exact ⟨fun he => hne he.symm, hs⟩
    have hclosed' : ∀ v ∈ insert node visited, ∀ w, (v, w) ∈ g →
        w ∈ insert node visited ∨
        w ∈ (succs g node).foldl (fun s n => if n ∈ insert node visited then s else n :: s) rest := by
      intro v hv w hvw
      rcases Finset.mem_insert.mp hv with rfl | hv
      · by_cases hwv : w ∈ insert v visited
        · exact Or.inl hwv
        · right
          rw [foldl_push_eq, List.mem_append, List.mem_reverse]
          exact Or.inl (List.mem_filter.mpr ⟨mem_succs.mpr hvw, by simpa using hwv⟩)
      · rcases hclosed v hv w hvw with hw | hw
        · exact Or.inl (Finset.mem_insert_of_mem hw)
        · rcases List.mem_cons.mp hw with rfl | hw
          · exact Or.inl (Finset.mem_insert_self _ _)
          · exact Or.inr (hsub_rest w hw)
    have ihres := ih h hs' hclosed'
    rcases hu with hu | hu
    · rcases List.mem_cons.mp hu with rfl | hu
      · exact ihres u (Or.inr (Finset.mem_insert_self _ _))
      · exact ihres u (Or.inl (hsub_rest u hu))
    · exact ihres u (Or.inr (Finset.mem_insert_of_mem hu))

theorem creates_cycle_true_iff (start fin : ℕ) (g : List (ℕ × ℕ)) :
    creates_cycle start fin g = true ↔ Reaches g fin start := by
  constructor
  · intro h
    rcases dfsAux_true_reaches g start [fin] ∅ h with ⟨u, hu, hr⟩
    rcases List.mem_cons.mp hu with rfl | hu
    · exact hr
    · cases hu
  · intro hr
    by_contra hfalse
    have hf : creates_cycle start fin g = false := by
      rcases Bool.eq_false_or_eq_true (creates_cycle start fin g) with h | h
      · exact absurd h hfalse
      · exact h
    exact dfsAux_false_no_reach g start [fin] ∅ hf (Finset.not_mem_empty _)
      (fun v hv => absurd hv (Finset.not_mem_empty _)) fin
      (Or.inl (List.mem_cons_self _ _)) hr

theorem reaches_cons_decompose {g : List (ℕ × ℕ)} {a b x y : ℕ}
    (h : Reaches ((a, b) :: g) x y) :
    Reaches g x y ∨ (Reaches g x a ∧ Reaches g b y) := by
  induction h using Relation.ReflTransGen.head_induction_on with
  | refl => exact Or.inl Relation.ReflTransGen.refl
  | head hxz _ ih =>
    rename_i x' z' _
    rcases List.mem_cons.mp hxz with he | he
    · rcases Prod.mk.injEq .. ▸ he with ⟨rfl, rfl⟩
      rcases ih with ih | ih
      · exact Or.inr ⟨Relation.ReflTransGen.refl, ih⟩
      · exact Or.inr ⟨Relation.ReflTransGen.refl, ih.2⟩
    · rcases ih with ih | ih
      · exact Or.inl (Relation.ReflTransGen.head he ih)
      · exact Or.inr ⟨Relation.ReflTransGen.head he ih.1, ih.2⟩

theorem acyclic_nil : Acyclic [] := by
  intro c h
  rcases Relation.TransGen.head'_iff.mp h with ⟨d, hd, _⟩
  cases hd

theorem acyclic_cons {g : List (ℕ × ℕ)} {a b : ℕ} (hA : Acyclic g)
    (hnr : ¬ Reaches g b a) : Acyclic ((a, b) :: g) := by
  intro c h
  rcases Relation.TransGen.head'_iff.mp h with ⟨d, hcd, hdc⟩
  rcases List.mem_cons.mp hcd with he | he
  · rcases Prod.mk.injEq .. ▸ he with ⟨rfl, rfl⟩
    rcases reaches_cons_decompose hdc with h' | h'
    · exact hnr h'
    · exact hnr h'.1
  · rcases reaches_cons_decompose hdc with h' | h'
    · exact hA c (Relation.TransGen.head' he h')
    · exact hnr (h'.2.trans (Relation.ReflTransGen.head he h'.1))

theorem lockStep_acyclic (L : List (ℕ × ℕ)) (p : ℕ × ℕ × ℕ) (hA : Acyclic L) :
    Acyclic (if creates_cycle p.1 p.2.1 L then L else (p.1, p.2.1) :: L) := by
  by_cases hc : creates_cycle p.1 p.2.1 L = true
  · rw [if_pos hc]; exact hA
  · rw [if_neg hc]
    refine acyclic_cons hA (fun hr => hc ((creates_cycle_true_iff _ _ _).mpr hr))

theorem lockPairs_foldl_acyclic (ps : List (ℕ × ℕ × ℕ)) :
    ∀ L, Acyclic L → Acyclic (ps.foldl (fun locked p =>
      if creates_cycle p.1 p.2.1 locked then locked else (p.1, p.2.1) :: locked) L) := by
  induction ps with
  | nil => intro L hA; exact hA
  | cons p rest ih =>
    intro L hA
    rw [List.foldl_cons]
    exact ih _ (lockStep_acyclic L p hA)

theorem lockPairs_acyclic (ps : List (ℕ × ℕ × ℕ)) : Acyclic (lockPairs ps) :=
  lockPairs_foldl_acyclic ps [] acyclic_nil

theorem lockPairs_foldl_mem (ps : List (ℕ × ℕ × ℕ)) :
    ∀ (L : List (ℕ × ℕ)) (e : ℕ × ℕ), e ∈ ps.foldl (fun locked p =>
      if creates_cycle p.1 p.2.1 locked then locked else (p.1, p.2.1) :: locked) L →
      e ∈ L ∨ e ∈ ps.map (fun p => (p.1, p.2.1)) := by
  induction ps with
  | nil => intro L e he; exact Or.inl he
  | cons p rest ih =>
    intro L e he
    rw [List.foldl_cons] at he
    rcases ih _ e he with h | h
    · by_cases hc : creates_cycle p.1 p.2.1 L = true
      · rw [if_pos hc] at h; exact Or.inl h
      · rw [if_neg hc] at h
        rcases List.mem_cons.mp h with rfl | h
        · exact Or.inr (List.mem_cons_self _ _)
        · exact Or.inl h
    · exact Or.inr (List.mem_cons_of_mem _ h)

theorem lockPairs_foldl_grow (ps : List (ℕ × ℕ × ℕ)) :
    ∀ (L : List (ℕ × ℕ)) (e : ℕ × ℕ), e ∈ L → e ∈ ps.foldl (fun locked p =>
      if creates_cycle p.1 p.2.1 locked then locked else (p.1, p.2.1) :: locked) L := by
  induction ps with
  | nil => intro L e he; exact he
  | cons p rest ih =>
    intro L e he
    rw [List.foldl_cons]
    apply ih
    by_cases hc : creates_cycle p.1 p.2.1 L = true
    · rw [if_pos hc]; exact he
    · rw [if_neg hc]; exact List.mem_cons_of_mem _ he

theorem rpPairsRaw_mem {cands : List ℕ} {ballots : List (List ℕ)} {p : ℕ × ℕ × ℕ}
    (h : p ∈ rpPairsRaw cands ballots) :
    p.1 ∈ cands ∧ p.2.1 ∈ cands ∧
      pairwiseCount ballots p.2.1 p.1 < pairwiseCount ballots p.1 p.2.1 := by
  simp only [rpPairsRaw, List.mem_flatMap, List.mem_filterMap] at h
  rcases h with ⟨a, ha, b, hb, he⟩
  by_cases hlt : pairwiseCount ballots b a < pairwiseCount ballots a b
  · rw [if_pos hlt] at he
    rcases Option.some.inj he with rfl
    exact ⟨ha, List.mem_of_mem_filter hb, hlt⟩
  · rw [if_neg hlt] at he
    cases he

theorem rpPairsRaw_mem_intro {cands : List ℕ} {ballots : List (List ℕ)} {a b : ℕ}
    (ha : a ∈ cands) (hb : b ∈ cands) (hne : b ≠ a)
    (hlt : pairwiseCount ballots b a < pairwiseCount ballots a b) :
    (a, b, pairwiseCount ballots a b - pairwiseCount ballots b a) ∈ rpPairsRaw cands ballots := by
  simp only [rpPairsRaw, List.mem_flatMap, List.mem_filterMap]
  refine ⟨a, ha, b, List.mem_filter.mpr ⟨hb, by simpa using hne⟩, ?_⟩
  rw [if_pos hlt]

theorem mem_rpPairs {cands : List ℕ} {ballots : List (List ℕ)} {p : ℕ × ℕ × ℕ} :
    p ∈ rpPairs cands ballots ↔ p ∈ rpPairsRaw cands ballots :=
  mem_pySort _ _ _

theorem exists_no_incoming (L : List (ℕ × ℕ)) (S : List ℕ) (hS : S ≠ [])
    (hE : ∀ e ∈ L, e.1 ∈ S) (hA : Acyclic L) :
    ∃ c ∈ S, ∀ e ∈ L, e.2 ≠ c := by
  by_contra hcon
  push_neg at hcon
  have hpred : ∀ c, ∃ d, c ∈ S → (d ∈ S ∧ (d, c) ∈ L) := by
    intro c
    by_cases hc : c ∈ S
    · rcases hcon c hc with ⟨e, heL, he2⟩
      refine ⟨e.1, fun _ => ⟨hE e heL, ?_⟩⟩
      rw [← he2, Prod.mk.eta]
      exact heL
    · exact ⟨0, fun h => absurd h hc⟩
  choose f hf using hpred
  obtain ⟨c0, hc0⟩ : ∃ c, c ∈ S := by
    rcases S with _ | ⟨s, t⟩
    · exact absurd rfl hS
    · exact ⟨s, List.mem_cons_self _ _⟩
  have hmem : ∀ n, f^[n] c0 ∈ S := by
    intro n
    induction n with
    | zero => simpa using hc0
    | succ k ih =>
      rw [Function.iterate_succ_apply']
      exact (hf _ ih).1
  have hedge : ∀ n, (f^[n + 1] c0, f^[n] c0) ∈ L := by
    intro n
    rw [Function.iterate_succ_apply']
    exact (hf _ (hmem n)).2
  have hchain : ∀ n k, Relation.TransGen (fun x y => (x, y) ∈ L) (f^[n + k + 1] c0) (f^[n] c0) := by
    intro n k
    induction k with
    | zero => exact Relation.TransGen.single (hedge n)
    | succ j ih =>
      have he : (f^[n + j + 2] c0, f^[n + j + 1] c0) ∈ L := hedge (n + j + 1)
      exact Relation.TransGen.head he ih
  have hcard : (S.toFinset).card < (Finset.range (S.toFinset.card + 1)).card := by simp
  obtain ⟨i, hi, j, hj, hne, hgij⟩ :=
    Finset.exists_ne_map_eq_of_card_lt_of_maps_to hcard
      (fun n _ => List.mem_toFinset.mpr (hmem n))
  rcases Nat.lt_or_ge i j with hij | hij
  · have hch := hchain i (j - i - 1)
    rw [show i + (j - i - 1) + 1 = j from by omega] at hch
    rw [hgij] at hch
    exact hA _ hch
  · have hij2 : j < i := Nat.lt_of_le_of_ne hij (fun he => hne he.symm)
    have hch := hchain j (i - j - 1)
    rw [show j + (i - j - 1) + 1 = i from by omega] at hch
    rw [← hgij] at hch
    exact hA _ hch

/-- C2: at every point of the edge-processing loop of `ranked_pairs_winner`
(after any prefix of the sorted pairs) the locked graph is acyclic. -/
theorem C2_locked_graph_acyclic (ballots : List (List ℕ)) (b0 : List ℕ)
    (hW : WellFormed ballots) (h0 : ballots.head? = some b0) (k : ℕ) :
    Acyclic (lockPairs ((rpPairs b0 ballots).take k)) :=
  lockPairs_acyclic _

/-- C2 witness: the locked graph of a concrete three-voter election is
acyclic after processing one edge. -/
theorem C2_witness :
    WellFormed [[0,1],[0,1],[1,0]] ∧
      ([[0,1],[0,1],[1,0]] : List (List ℕ)).head? = some [0,1] ∧
      Acyclic (lockPairs ((rpPairs [0,1] [[0,1],[0,1],[1,0]]).take 1)) :=
  ⟨by decide, rfl,
    C2_locked_graph_acyclic [[0,1],[0,1],[1,0]] [0,1] (by decide) rfl 1⟩

/-- C3 counterexample: the singleton ballot set whose only ballot ranks zero
candidates is non-empty and well-formed in the claim's sense (no duplicates,
common universe), yet `ranked_pairs_winner` returns none. -/
theorem C3_counterexample :
    WellFormed [[]] ∧ ([[]] : List (List ℕ)) ≠ [] ∧
      ranked_pairs_winner [[]] = .ok none :=
  ⟨by decide, by decide, by decide⟩

/-- C3 (amended): for every non-empty well-formed ballot set whose candidate
universe is non-empty, `ranked_pairs_winner` returns a candidate: some
candidate with zero incoming locked edges always exists. -/
theorem C3_ranked_pairs_returns_winner (ballots : List (List ℕ)) (b0 : List ℕ)
    (hW : WellFormed ballots) (h0 : ballots.head? = some b0) (hne : b0 ≠ []) :
    ∃ c, ranked_pairs_winner ballots = .ok (some c) := by
  rcases ballots with _ | ⟨c0, rest⟩
  · cases h0
  · obtain rfl : c0 = b0 := Option.some.inj h0
    have hv : tallyValid c0 (c0 :: rest) = true := wf_tallyValid hW rfl
    set L := lockPairs (rpPairs c0 (c0 :: rest)) with hL
    have hEdges : ∀ e ∈ L, e.1 ∈ c0 := by
      intro e he
      rcases lockPairs_foldl_mem _ [] e he with h | h
      · cases h
      · rcases List.mem_map.mp h with ⟨p, hp, rfl⟩
        exact (rpPairsRaw_mem (mem_rpPairs.mp hp)).1
    have hA : Acyclic L := lockPairs_acyclic (rpPairs c0 (c0 :: rest))
    obtain ⟨c, hc, hno⟩ := exists_no_incoming L c0 hne hEdges hA
    have hdeg : inDeg L c = 0 := by
      rw [inDeg, List.countP_eq_zero]
      intro e he
      simpa using hno e he
    have hcf : c ∈ c0.filter (fun x => inDeg L x = 0) :=
      List.mem_filter.mpr ⟨hc, by simp [hdeg]⟩
    rcases hfil : c0.filter (fun x => inDeg L x = 0) with _ | ⟨w, ws⟩
    · rw [hfil] at hcf; cases hcf
    · refine ⟨w, ?_⟩
      simp only [ranked_pairs_winner]
      rw [if_pos hv, ← hL, hfil]
      rfl

/-- C3 witness: a concrete two-candidate election where the amended theorem
applies. -/
theorem C3_witness :
    WellFormed [[0,1],[1,0]] ∧
      ([[0,1],[1,0]] : List (List ℕ)).head? = some [0,1] ∧
      ([0,1] : List ℕ) ≠ [] ∧
      ∃ c, ranked_pairs_winner [[0,1],[1,0]] = .ok (some c) :=
  ⟨by decide, rfl, by decide,
    C3_ranked_pairs_returns_winner [[0,1],[1,0]] [0,1] (by decide) rfl (by decide)⟩

theorem rpPairsRaw_ne {cands : List ℕ} {ballots : List (List ℕ)} {p : ℕ × ℕ × ℕ}
    (h : p ∈ rpPairsRaw cands ballots) : p.2.1 ≠ p.1 := by
  simp only [rpPairsRaw, List.mem_flatMap, List.mem_filterMap] at h
  rcases h with ⟨a, ha, b, hb, he⟩
  by_cases hlt : pairwiseCount ballots b a < pairwiseCount ballots a b
  · rw [if_pos hlt] at he
    rcases Option.some.inj he with rfl
    have := (List.mem_filter.mp hb).2
    simpa using this
  · rw [if_neg hlt] at he
    cases he

theorem no_reaches_into (L : List (ℕ × ℕ)) (c b : ℕ)
    (hL : ∀ e ∈ L, e.2 ≠ c) (hbc : b ≠ c) : ¬ Reaches L b c := by
  intro h
  rcases Relation.ReflTransGen.cases_tail h with he | ⟨x, _, hx⟩
  · exact hbc he.symm
  · exact hL (x, c) hx rfl

theorem lockPairs_locks_all (c : ℕ) :
    ∀ (ps : List (ℕ × ℕ × ℕ)) (L : List (ℕ × ℕ)),
      (∀ p ∈ ps, p.2.1 ≠ c) → (∀ e ∈ L, e.2 ≠ c) →
      ∀ p ∈ ps, p.1 = c → (p.1, p.2.1) ∈ ps.foldl (fun locked q =>
        if creates_cycle q.1 q.2.1 locked then locked else (q.1, q.2.1) :: locked) L := by
  intro ps
  induction ps with
  | nil =>
    intro L _ _ p hp
    cases hp
  | cons q rest ih =>
    intro L hps hL p hp hpc
    rw [List.foldl_cons]
    have hq2 : q.2.1 ≠ c := hps q (List.mem_cons_self _ _)
    have hL' : ∀ e ∈ (if creates_cycle q.1 q.2.1 L then L else (q.1, q.2.1) :: L), e.2 ≠ c := by
      by_cases hcc : creates_cycle q.1 q.2.1 L = true
      · rw [if_pos hcc]; exact hL
      · rw [if_neg hcc]
        intro e he
        rcases List.mem_cons.mp he with rfl | he
        · exact hq2
        · exact hL e he
    rcases List.mem_cons.mp hp with rfl | hp
    · have hcc : creates_cycle p.1 p.2.1 L = false := by
        rcases Bool.eq_false_or_eq_true (creates_cycle p.1 p.2.1 L) with h | h
        · exfalso
          have hr := (creates_cycle_true_iff _ _ _).mp h
          rw [hpc] at hr
          exact no_reaches_into L c p.2.1 hL hq2 hr
        · exact h
      apply lockPairs_foldl_grow
      have hne : ¬ (creates_cycle p.1 p.2.1 L = true) := by
        rw [hcc]; simp
      rw [if_neg hne]
      exact List.mem_cons_self _ _
    · exact ih _ (fun p' hp' => hps p' (List.mem_cons_of_mem _ hp')) hL' p hp hpc

theorem filter_eq_singleton {l : List ℕ} (hn : l.Nodup) {c : ℕ} (hc : c ∈ l) :
    l.filter (fun x => x = c) = [c] := by
  induction l with
  | nil => cases hc
  | cons h t ih =>
    rcases List.nodup_cons.mp hn with ⟨hh, ht⟩
    rcases List.mem_cons.mp hc with rfl | hct
    · rw [List.filter_cons_of_pos (by simp)]
      have hnilf : t.filter (fun x => x = c) = [] := by
        rw [List.filter_eq_nil_iff]
        intro a ha
        simp only [decide_eq_true_eq]
        intro he
        rw [he] at ha
        exact hh ha
      rw [hnilf]
    · have hhc : h ≠ c := fun he => hh (he ▸ hct)
      rw [List.filter_cons_of_neg (by simpa using hhc)]
      exact ih ht hct

/-- C1: whenever `find_condorcet_winner` returns a candidate on a
well-formed ballot set, `ranked_pairs_winner` returns the same candidate. -/
theorem C1_ranked_pairs_condorcet (ballots : List (List ℕ)) (c : ℕ)
    (hW : WellFormed ballots)
    (hfcw : find_condorcet_winner ballots = .ok (some c)) :
    ranked_pairs_winner ballots = .ok (some c) := by
  rcases ballots with _ | ⟨c0, rest⟩
  · have hnil : find_condorcet_winner ([] : List (List ℕ)) = .ok none := by decide
    exact Option.noConfusion (Except.ok.inj (hnil.symm.trans hfcw))
  · have hv : tallyValid c0 (c0 :: rest) = true := wf_tallyValid hW rfl
    have hnd : c0.Nodup := hW.1
    have hpm : pairwise_matrix (c0 :: rest)
        = .ok ((pairKeys c0).map (fun p => (p, pairwiseCount (c0 :: rest) p.1 p.2))) := by
      simp only [pairwise_matrix]
      rw [if_pos hv]
    set M := (pairKeys c0).map (fun p => (p, pairwiseCount (c0 :: rest) p.1 p.2)) with hM
    unfold find_condorcet_winner at hfcw
    simp only [hpm] at hfcw
    by_cases hMe : M.isEmpty = true
    · rw [if_pos hMe] at hfcw
      exact absurd (Except.ok.inj hfcw) (by simp)
    · rw [if_neg hMe] at hfcw
      have hfind := Except.ok.inj hfcw
      set cands := pySort (fun a b => a ≤ b)
        (uniqueKeys (M.flatMap (fun kv => [kv.1.1, kv.1.2]))) with hcands
      have hcmem : c ∈ cands := List.mem_of_find?_eq_some hfind
      have hpredAll := List.find?_some hfind
      rw [List.all_eq_true] at hpredAll
      have hcc0 : c ∈ c0 := by
        have h1 := (mem_pySort _ _ _).mp (hcands ▸ hcmem)
        have h2 := mem_of_mem_uniqueKeys h1
        rcases List.mem_flatMap.mp h2 with ⟨kv, hkv, hcin⟩
        rcases List.mem_map.mp (hM ▸ hkv) with ⟨p, hp, rfl⟩
        rcases p with ⟨pa, pb⟩
        rcases pairKeys_mem_iff.mp hp with ⟨hpa, hpb, _⟩
        simp only [List.mem_cons, List.mem_singleton] at hcin
        rcases hcin with rfl | rfl | h'
        · exact hpa
        · exact hpb
        · cases h'
      have hxmem : ∀ x ∈ c0, x ≠ c → x ∈ cands := by
        intro x hx hxc
        rw [hcands, mem_pySort, mem_uniqueKeys]
        apply List.mem_flatMap.mpr
        refine ⟨((x, c), pairwiseCount (c0 :: rest) x c), ?_, by simp⟩
        rw [hM]
        exact List.mem_map.mpr
          ⟨(x, c), pairKeys_mem_iff.mpr ⟨hx, hcc0, fun he => hxc he.symm⟩, rfl⟩
      have hbeats : ∀ x ∈ c0, x ≠ c →
          pairwiseCount (c0 :: rest) x c < pairwiseCount (c0 :: rest) c x := by
        intro x hx hxc
        have hall := hpredAll x (hxmem x hx hxc)
        rw [Bool.or_eq_true] at hall
        rcases hall with h' | h'
        · exact absurd (by simpa using h') hxc
        · have hk1 : (x, c) ∈ pairKeys c0 :=
            pairKeys_mem_iff.mpr ⟨hx, hcc0, fun he => hxc he.symm⟩
          have hk2 : (c, x) ∈ pairKeys c0 := pairKeys_mem_iff.mpr ⟨hcc0, hx, hxc⟩
          have hg1 : matrixGet M (x, c) = pairwiseCount (c0 :: rest) x c := by
            rw [hM, matrixGet, lookup_map_self hk1]
            rfl
          have hg2 : matrixGet M (c, x) = pairwiseCount (c0 :: rest) c x := by
            rw [hM, matrixGet, lookup_map_self hk2]
            rfl
          rw [hg1, hg2] at h'
          simpa using h'
      have hps : ∀ p ∈ rpPairs c0 (c0 :: rest), p.2.1 ≠ c := by
        intro p hp he
        have hm := rpPairsRaw_mem (mem_rpPairs.mp hp)
        have hne := rpPairsRaw_ne (mem_rpPairs.mp hp)
        rw [he] at hm hne
        have hlt := hbeats p.1 hm.1 (Ne.symm hne)
        omega
      set L := lockPairs (rpPairs c0 (c0 :: rest)) with hL
      have hLin : ∀ e ∈ L, e.2 ≠ c := by
        intro e he
        rcases lockPairs_foldl_mem _ [] e (hL ▸ he) with h' | h'
        · cases h'
        · rcases List.mem_map.mp h' with ⟨p, hp, rfl⟩
          exact hps p hp
      have hlock : ∀ x ∈ c0, x ≠ c → (c, x) ∈ L := by
        intro x hx hxc
        have hraw : (c, x, pairwiseCount (c0 :: rest) c x - pairwiseCount (c0 :: rest) x c)
            ∈ rpPairsRaw c0 (c0 :: rest) :=
          rpPairsRaw_mem_intro hcc0 hx hxc (hbeats x hx hxc)
        have hpair := mem_rpPairs.mpr hraw
        have := lockPairs_locks_all c (rpPairs c0 (c0 :: rest)) [] hps
          (by intro e he; cases he) _ hpair rfl
        exact hL ▸ this
      have hdegc : inDeg L c = 0 := by
        rw [inDeg, List.countP_eq_zero]
        intro e he
        simpa using hLin e he
      have hdegx : ∀ x ∈ c0, x ≠ c → ¬ (inDeg L x = 0) := by
        intro x hx hxc h0'
        have hpos : 0 < inDeg L x := by
          rw [inDeg, List.countP_pos_iff]
          exact ⟨(c, x), hlock x hx hxc, by simp⟩
        omega
      have hfil : c0.filter (fun x => inDeg L x = 0) = [c] := by
        have hcong : c0.filter (fun x => inDeg L x = 0)
            = c0.filter (fun x => x = c) := by
          apply List.filter_congr
          intro a ha
          by_cases hac : a = c
          · simp [hac, hdegc]
          · simp [hac, hdegx a ha hac]
        rw [hcong]
        exact filter_eq_singleton hnd hcc0
      simp only [ranked_pairs_winner]
      rw [if_pos hv, ← hL, hfil]
      rfl

/-- C1 witness: a concrete election with Condorcet winner 0. -/
theorem C1_witness :
    WellFormed [[0,1],[0,1],[1,0]] ∧
      find_condorcet_winner [[0,1],[0,1],[1,0]] = .ok (some 0) ∧
      ranked_pairs_winner [[0,1],[0,1],[1,0]] = .ok (some 0) :=
  ⟨by decide, by decide,
    C1_ranked_pairs_condorcet [[0,1],[0,1],[1,0]] 0 (by decide) (by decide)⟩

theorem list_sum_map_add2 {α M : Type} [AddCommMonoid M] (l : List α) (f g : α → M) :
    (l.map (fun x => f x + g x)).sum = (l.map f).sum + (l.map g).sum := by
  induction l with
  | nil => simp
  | cons x xs ih =>
    simp only [List.map_cons, List.sum_cons, ih]
    exact add_add_add_comm _ _ _ _

theorem list_sum_comm {α β M : Type} [AddCommMonoid M] (l1 : List α) (l2 : List β)
    (f : α → β → M) :
    (l1.map (fun a => (l2.map (f a)).sum)).sum
      = (l2.map (fun b => (l1.map (fun a => f a b)).sum)).sum := by
  induction l1 with
  | nil => simp
  | cons a as ih =>
    simp only [List.map_cons, List.sum_cons, ih, ← list_sum_map_add2]

theorem list_sum_map_const_int {α : Type} (l : List α) (x : ℤ) :
    (l.map (fun _ => x)).sum = (l.length : ℤ) * x := by
  induction l with
  | nil => simp
  | cons a as ih =>
    simp only [List.map_cons, List.sum_cons, List.length_cons, ih]
    push_cast
    ring

theorem bordaBallot_of_not_mem {b : List ℕ} {c : ℕ} (h : c ∉ b) (m : ℕ) :
    ∀ r, bordaBallot m r b c = 0 := by
  induction b with
  | nil => intro r; rfl
  | cons x xs ih =>
    intro r
    rw [bordaBallot]
    have hxc : ¬ (x = c) := fun he => h (he ▸ List.mem_cons_self _ _)
    rw [if_neg hxc, ih (fun hm => h (List.mem_cons_of_mem _ hm))]
    ring

theorem bordaBallot_row_sum {b : List ℕ} (hn : b.Nodup) (m : ℕ) :
    ∀ r, (b.map (fun c => bordaBallot m r b c)).sum
      = ∑ i in Finset.range b.length, ((m : ℤ) - r - i - 1) := by
  induction b with
  | nil => intro r; simp
  | cons x xs ih =>
    intro r
    rcases List.nodup_cons.mp hn with ⟨hx, hxs⟩
    rw [List.map_cons, List.sum_cons]
    have hhead : bordaBallot m r (x :: xs) x = (m : ℤ) - r - 1 := by
      rw [bordaBallot, if_pos rfl, bordaBallot_of_not_mem hx m (r + 1)]
      ring
    have htail : (xs.map (fun c => bordaBallot m r (x :: xs) c)).sum
        = (xs.map (fun c => bordaBallot m (r + 1) xs c)).sum := by
      apply congrArg
      apply List.map_congr_left
      intro c hc
      rw [bordaBallot, if_neg (fun he => hx (by rw [he]; exact hc))]
      ring
    rw [hhead, htail, ih hxs (r + 1), List.length_cons, Finset.sum_range_succ']
    push_cast
    rw [show (∑ i in Finset.range xs.length, ((m : ℤ) - ((r : ℤ) + 1) - (i : ℤ) - 1))
        = ∑ i in Finset.range xs.length, ((m : ℤ) - (r : ℤ) - ((i : ℤ) + 1) - 1) from
      Finset.sum_congr rfl (fun i _ => by ring)]
    ring

theorem gauss_int (m : ℕ) :
    2 * (∑ i in Finset.range m, ((m : ℤ) - i - 1)) = m * ((m : ℤ) - 1) := by
  induction m with
  | zero => simp
  | succ k ih =>
    rw [Finset.sum_range_succ]
    have hshift : ∑ i in Finset.range k, (((k : ℕ) + 1 : ℤ) - i - 1)
        = (∑ i in Finset.range k, ((k : ℤ) - i - 1)) + k := by
      rw [show (fun i : ℕ => (((k : ℕ) + 1 : ℤ) - i - 1))
          = fun i : ℕ => ((k : ℤ) - i - 1) + 1 from by funext i; push_cast; ring]
      rw [Finset.sum_add_distrib]
      simp
    push_cast
    push_cast at hshift
    rw [hshift]
    push_cast at ih
    linear_combination ih

/-- C8: for every well-formed ballot set over `m` candidates, the Borda
scores computed by `borda_winner` sum to `|ballots| * m * (m-1) / 2`. -/
theorem C8_borda_score_budget (ballots : List (List ℕ)) (b0 : List ℕ)
    (hW : WellFormed ballots) (h0 : ballots.head? = some b0) :
    (b0.map (fun c => bordaScore b0.length ballots c)).sum
      = (ballots.length : ℤ) * b0.length * ((b0.length : ℤ) - 1) / 2 := by
  rcases ballots with _ | ⟨c0, rest⟩
  · cases h0
  · obtain rfl : c0 = b0 := Option.some.inj h0
    rcases hW with ⟨hnd, hperm⟩
    have hswap : (c0.map (fun c => bordaScore c0.length (c0 :: rest) c)).sum
        = ((c0 :: rest).map (fun bal =>
            (c0.map (fun c => bordaBallot c0.length 0 bal c)).sum)).sum := by
      simp only [bordaScore]
      exact list_sum_comm c0 (c0 :: rest) (fun c bal => bordaBallot c0.length 0 bal c)
    have hrows : ∀ bal ∈ c0 :: rest,
        (c0.map (fun c => bordaBallot c0.length 0 bal c)).sum
          = ∑ i in Finset.range c0.length, ((c0.length : ℤ) - i - 1) := by
      intro bal hbal
      have hbperm := hperm bal hbal
      have hbnd : bal.Nodup := hbperm.nodup_iff.mpr hnd
      have hmap : (c0.map (fun c => bordaBallot c0.length 0 bal c)).Perm
          (bal.map (fun c => bordaBallot c0.length 0 bal c)) :=
        (hbperm.map _).symm
      rw [hmap.sum_eq]
      have := bordaBallot_row_sum hbnd c0.length 0
      rw [this, hbperm.length_eq]
      apply Finset.sum_congr rfl
      intro i _
      push_cast
      ring
    set T := ∑ i in Finset.range c0.length, ((c0.length : ℤ) - i - 1) with hT
    have hTtotal : (c0.map (fun c => bordaScore c0.length (c0 :: rest) c)).sum
        = ((c0 :: rest).length : ℤ) * T := by
      rw [hswap, List.map_congr_left hrows, list_sum_map_const_int]
    have hgauss : 2 * T = c0.length * ((c0.length : ℤ) - 1) := gauss_int c0.length
    rw [hTtotal]
    have h2 : ((c0 :: rest).length : ℤ) * c0.length * ((c0.length : ℤ) - 1)
        = 2 * (((c0 :: rest).length : ℤ) * T) := by
      rw [mul_assoc, ← hgauss]
      ring
    rw [h2, Int.mul_ediv_cancel_left _ (by norm_num)]

/-- C8 witness: a two-candidate, three-voter election distributes a budget
of `3 * 2 * 1 / 2 = 3` Borda points. -/
theorem C8_witness :
    WellFormed [[0,1],[1,0],[0,1]] ∧
      ([[0,1],[1,0],[0,1]] : List (List ℕ)).head? = some [0,1] ∧
      (([0,1] : List ℕ).map
        (fun c => bordaScore 2 [[0,1],[1,0],[0,1]] c)).sum
        = (([[0,1],[1,0],[0,1]] : List (List ℕ)).length : ℤ) * 2 * ((2 : ℤ) - 1) / 2 :=
  ⟨by decide, rfl,
    C8_borda_score_budget [[0,1],[1,0],[0,1]] [0,1] (by decide) rfl⟩

/-- C4 counterexample: a single-candidate election with a real evaluator.
The ballot set is non-empty and well-formed, the rule returns the sole
candidate, and `satisfaction_score` divides by zero instead of returning a
value in the unit interval. -/
theorem C4_counterexample :
    WellFormed [[0]] ∧ ([[0]] : List (List ℕ)) ≠ [] ∧
      satisfaction_score plurality_winner [[0]] = .error "ZeroDivisionError" :=
  ⟨by decide, by decide, by decide⟩

/-- C4 (amended): for every rule whose result on the ballot set is none or a
candidate on the ballots, and every non-empty well-formed ballot set with at
least two candidates, `satisfaction_score` returns a value in `[0,1]`; with
one candidate the division `(n-1-rank)/(n-1)` raises `ZeroDivisionError`
whenever the rule returns the sole candidate. -/
theorem C4_satisfaction_in_range (rule : List (List ℕ) → Except String (Option ℕ))
    (ballots : List (List ℕ)) (b0 : List ℕ)
    (hW : WellFormed ballots) (h0 : ballots.head? = some b0) (hm : 2 ≤ b0.length)
    (hr : rule ballots = .ok none ∨ ∃ w, rule ballots = .ok (some w) ∧ w ∈ b0) :
    ∃ q, satisfaction_score rule ballots = .ok q ∧ 0 ≤ q ∧ q ≤ 1 := by
  rcases ballots with _ | ⟨c0, rest⟩
  · cases h0
  · obtain rfl : c0 = b0 := Option.some.inj h0
    rcases hr with hr | ⟨w, hr, hwb⟩
    · refine ⟨0, ?_, le_refl _, by norm_num⟩
      simp only [satisfaction_score, hr]
    · have hall : (c0 :: rest).all (fun b => w ∈ b) = true := by
        rw [List.all_eq_true]
        intro b hb
        have := (hW.2 b hb).mem_iff.mpr hwb
        simpa using this
      have hlen1 : ¬ (c0.length = 1) := by omega
      have hnpos : (0 : ℚ) < ((c0 :: rest).length : ℚ) := by
        rw [List.length_cons]
        push_cast
        positivity
      have hd : (0 : ℚ) < (c0.length : ℚ) - 1 := by
        have : (2 : ℚ) ≤ (c0.length : ℚ) := by exact_mod_cast hm
        linarith
      have hterm : ∀ b ∈ c0 :: rest,
          (0 : ℚ) ≤ ((c0.length : ℚ) - 1 - (b.indexOf w : ℕ)) / ((c0.length : ℚ) - 1) ∧
          ((c0.length : ℚ) - 1 - (b.indexOf w : ℕ)) / ((c0.length : ℚ) - 1) ≤ 1 := by
        intro b hb
        have hbl : b.length = c0.length := (hW.2 b hb).length_eq
        have hwB : w ∈ b := (hW.2 b hb).mem_iff.mpr hwb
        have hidx : b.indexOf w < b.length := List.indexOf_lt_length.mpr hwB
        have hidxQ : (b.indexOf w : ℚ) + 1 ≤ (c0.length : ℚ) := by
          rw [← hbl]
          exact_mod_cast hidx
        constructor
        · apply div_nonneg _ (le_of_lt hd)
          linarith
        · rw [div_le_one hd]
          have : (0 : ℚ) ≤ (b.indexOf w : ℚ) := by positivity
          linarith
      refine ⟨((c0 :: rest).map (fun b =>
          ((c0.length : ℚ) - 1 - (b.indexOf w : ℕ)) / ((c0.length : ℚ) - 1))).sum
            / ((c0 :: rest).length : ℚ), ?_, ?_, ?_⟩
      · simp only [satisfaction_score, hr]
        rw [if_pos hall, if_neg hlen1]
      · apply div_nonneg _ (le_of_lt hnpos)
        apply List.sum_nonneg
        intro q hq
        rcases List.mem_map.mp hq with ⟨b, hb, rfl⟩
        exact (hterm b hb).1
      · rw [div_le_one hnpos]
        have hb1 : ∀ q ∈ ((c0 :: rest).map (fun b =>
            ((c0.length : ℚ) - 1 - (b.indexOf w : ℕ)) / ((c0.length : ℚ) - 1))),
            q ≤ 1 := by
          intro q hq
          rcases List.mem_map.mp hq with ⟨b, hb, rfl⟩
          exact (hterm b hb).2
        calc ((c0 :: rest).map (fun b =>
            ((c0.length : ℚ) - 1 - (b.indexOf w : ℕ)) / ((c0.length : ℚ) - 1))).sum
            ≤ ((c0 :: rest).map (fun b =>
              ((c0.length : ℚ) - 1 - (b.indexOf w : ℕ)) / ((c0.length : ℚ) - 1))).length • (1 : ℚ) :=
              List.sum_le_card_nsmul _ _ hb1
          _ = ((c0 :: rest).length : ℚ) := by
              rw [List.length_map]
              simp [nsmul_eq_mul]

/-- C4 witness: `plurality_winner` on a two-candidate election. -/
theorem C4_witness :
    WellFormed [[0,1],[1,0]] ∧
      ([[0,1],[1,0]] : List (List ℕ)).head? = some [0,1] ∧ 2 ≤ ([0,1] : List ℕ).length ∧
      ∃ q, satisfaction_score plurality_winner [[0,1],[1,0]] = .ok q ∧ 0 ≤ q ∧ q ≤ 1 :=
  ⟨by decide, rfl, by decide,
    C4_satisfaction_in_range plurality_winner [[0,1],[1,0]] [0,1] (by decide) rfl (by decide)
      (Or.inr ⟨0, by decide, by decide⟩)⟩

theorem mvLoop_ok (rule : List (List ℕ) → Except String (Option ℕ))
    (ballots : List (List ℕ)) (w : ℕ) (rng : ℕ → ℕ)
    (hrt : ∀ bs, ∃ r, rule bs = .ok r)
    (hwin : ∀ b ∈ ballots, w ∈ b) :
    ∀ k t, ∃ v, mvLoop rule ballots w rng k t = .ok v := by
  intro k
  induction k with
  | zero => intro t; exact ⟨0, rfl⟩
  | succ j ih =>
    intro t
    have hall : ballots.all (fun b => w ∈ b) = true := by
      rw [List.all_eq_true]
      intro b hb
      simpa using hwin b hb
    rcases hidx : (List.range ballots.length).filter
        (fun i => 0 < (ballots.getD i []).indexOf w) with _ | ⟨i0, is⟩
    · refine ⟨0, ?_⟩
      rw [mvLoop, if_pos hall, hidx]
    · rcases hrt (promoteAt ballots ((i0 :: is).getD (rng t % (i0 :: is).length) 0) w)
        with ⟨nw, hnw⟩
      rcases ih (t + 1) with ⟨v', hv'⟩
      refine ⟨(if nw ≠ some w then 1 else 0) + v', ?_⟩
      rw [mvLoop, if_pos hall, hidx]
      simp only [hnw, hv']

/-- C9: when the rule yields a winner on a non-empty well-formed ballot set
and `trials ≥ 1`, `monotonicity_violation_rate` returns the violation count
of the (possibly early-exiting) loop divided by the requested `trials`. -/
theorem C9_mv_rate_denominator (rule : List (List ℕ) → Except String (Option ℕ))
    (ballots : List (List ℕ)) (w : ℕ) (trials : ℕ) (rng : ℕ → ℕ)
    (hW : WellFormed ballots) (hne : ballots ≠ []) (ht : 1 ≤ trials)
    (hrule : rule ballots = .ok (some w)) (hwin : ∀ b ∈ ballots, w ∈ b)
    (hrt : ∀ bs, ∃ r, rule bs = .ok r) :
    ∃ v, mvLoop rule ballots w rng trials 0 = .ok v ∧
      monotonicity_violation_rate rule ballots trials rng = .ok ((v : ℚ) / (trials : ℚ)) := by
  rcases ballots with _ | ⟨b0, rest⟩
  · exact absurd rfl hne
  · rcases mvLoop_ok rule (b0 :: rest) w rng hrt hwin trials 0 with ⟨v, hv⟩
    refine ⟨v, hv, ?_⟩
    simp only [monotonicity_violation_rate, hrule, hv]
    rw [Nat.max_eq_right ht]

/-- C9 witness: a rule that always elects candidate 0 on an election where
every voter already ranks 0 first, so the loop exits early at the first of
three requested trials; the rate is still `0 / 3`. -/
theorem C9_witness :
    WellFormed [[0,1],[0,1]] ∧ ([[0,1],[0,1]] : List (List ℕ)) ≠ [] ∧ 1 ≤ 3 ∧
      (fun _ : List (List ℕ) => (Except.ok (some 0) : Except String (Option ℕ))) [[0,1],[0,1]]
        = .ok (some 0) ∧
      (∀ b ∈ ([[0,1],[0,1]] : List (List ℕ)), 0 ∈ b) ∧
      ∃ v, mvLoop (fun _ => .ok (some 0)) [[0,1],[0,1]] 0 (fun _ => 0) 3 0 = .ok v ∧
        monotonicity_violation_rate (fun _ => .ok (some 0)) [[0,1],[0,1]] 3 (fun _ => 0)
          = .ok ((v : ℚ) / (3 : ℚ)) :=
  ⟨by decide, by decide, by decide, rfl, by decide,
    C9_mv_rate_denominator (fun _ => .ok (some 0)) [[0,1],[0,1]] 0 3 (fun _ => 0)
      (by decide) (by decide) (by decide) rfl (by decide) (fun bs => ⟨some 0, rfl⟩)⟩

theorem pyArgMin_mem {f : ℕ → ℕ} {l : List ℕ} {r : ℕ} (h : pyArgMin f l = some r) :
    r ∈ l := by
  have hfold : ∀ (xs : List ℕ) (x q : ℕ),
      xs.foldl (fun m k => if f k < f m then k else m) x = q → q = x ∨ q ∈ xs := by
    intro xs
    induction xs with
    | nil => intro x q hq; left; exact hq.symm
    | cons y ys ih =>
      intro x q hq
      simp only [List.foldl_cons] at hq
      by_cases hc : f y < f x
      · rw [if_pos hc] at hq
        rcases ih y q hq with h1 | h1
        · right; simp [h1]
        · right; exact List.mem_cons_of_mem _ h1
      · rw [if_neg hc] at hq
        rcases ih x q hq with h1 | h1
        · left; exact h1
        · right; exact List.mem_cons_of_mem _ h1
  rcases l with _ | ⟨u, us⟩
  · simp only [pyArgMin] at h
    cases h
  · simp only [pyArgMin, Option.some.injEq] at h
    rcases hfold us u r h with h1 | h1
    · rw [h1]; exact List.mem_cons_self _ _
    · exact List.mem_cons_of_mem _ h1

theorem uniqueKeys_const {fc : List ℕ} {x : ℕ} (hne : fc ≠ []) (hall : ∀ y ∈ fc, y = x) :
    uniqueKeys fc = [x] := by
  rcases fc with _ | ⟨y, ys⟩
  · exact absurd rfl hne
  · obtain rfl : y = x := hall y (List.mem_cons_self _ _)
    rw [uniqueKeys]
    have : (uniqueKeys ys).filter (fun z => z != y) = [] := by
      rw [List.filter_eq_nil_iff]
      intro a ha
      have : a = y := hall a (List.mem_cons_of_mem _ (mem_of_mem_uniqueKeys ha))
      simp [this]
    rw [this]

theorem uniqueKeys_ne_nil {fc : List ℕ} (hne : fc ≠ []) : uniqueKeys fc ≠ [] := by
  rcases fc with _ | ⟨y, ys⟩
  · exact absurd rfl hne
  · rw [uniqueKeys]
    exact List.cons_ne_nil _ _

theorem WellFormed_remove {b0 : List ℕ} {rest : List (List ℕ)}
    (hW : WellFormed (b0 :: rest)) (c : ℕ) :
    WellFormed (remove_candidate (b0 :: rest) c) := by
  rcases hW with ⟨hnd, hperm⟩
  simp only [remove_candidate, List.map_cons]
  refine ⟨hnd.filter _, ?_⟩
  intro b hb
  rcases List.mem_cons.mp hb with rfl | hb
  · exact List.Perm.refl _
  · rcases List.mem_map.mp hb with ⟨b', hb', rfl⟩
    exact (hperm b' (List.mem_cons_of_mem _ hb')).filter _

theorem irv_winner_eq (ballots : List (List ℕ)) : irv_winner ballots =
    match firstChoices ballots with
    | none => .error "IndexError"
    | some fc =>
      match (uniqueKeys fc).find? (fun c => fc.length < 2 * fc.count c) with
      | some c => .ok (some c)
      | none =>
        match pyArgMin (fun c => fc.count c) (uniqueKeys fc) with
        | none => .error "ValueError"
        | some lowest =>
          match remove_candidate ballots lowest with
          | [] => .error "IndexError"
          | b0 :: rest =>
            if b0.length = 1 then .ok (some (b0.headD 0)) else irv_winner (b0 :: rest) := by
  rw [irv_winner]
  split
  · rename_i heq
    simp only [heq]
  · rename_i fc heq
    simp only [heq]
    split
    · rfl
    · split
      · rename_i heq3
        simp only [heq3]
      · rename_i lowest heq3
        simp only [heq3]
        split
        · rename_i heq4
          simp only [heq4]
        · rename_i b0 rest heq4
          simp only [heq4]

theorem irvRounds_eq (ballots : List (List ℕ)) : irvRounds ballots =
    match firstChoices ballots with
    | none => 1
    | some fc =>
      match (uniqueKeys fc).find? (fun c => fc.length < 2 * fc.count c) with
      | some _ => 1
      | none =>
        match pyArgMin (fun c => fc.count c) (uniqueKeys fc) with
        | none => 1
        | some lowest =>
          match remove_candidate ballots lowest with
          | [] => 1
          | b0 :: rest =>
            if b0.length = 1 then 1 else 1 + irvRounds (b0 :: rest) := by
  rw [irvRounds]
  split
  · rename_i heq
    simp only [heq]
  · rename_i fc heq
    simp only [heq]
    split
    · rfl
    · split
      · rename_i heq3
        simp only [heq3]
      · rename_i lowest heq3
        simp only [heq3]
        split
        · rename_i heq4
          simp only [heq4]
        · rename_i b0 rest heq4
          simp only [heq4]

/-- C6 counterexample: a well-formed single-candidate election runs one
round of the loop (the majority branch fires), exceeding the claimed bound
of `m - 1 = 0` rounds. -/
theorem C6_counterexample :
    WellFormed [[7]] ∧ ([[7]] : List (List ℕ)) ≠ [] ∧ irvRounds [[7]] = 1 ∧
      ¬ (irvRounds [[7]] ≤ ([7] : List ℕ).length - 1) := by
  have h1 : irvRounds [[7]] = 1 := by
    rw [irvRounds_eq]
    rfl
  exact ⟨by decide, by decide, h1, by rw [h1]; decide⟩

/-- C6 (amended): on every non-empty well-formed ballot set with `m ≥ 1`
candidates, `irv_winner` terminates with a candidate; the loop runs at most
`m - 1` rounds when `m ≥ 2` and exactly one round when `m = 1` (the sole
candidate already has a strict majority). -/
theorem C6_irv_terminates : ∀ (m : ℕ) (ballots : List (List ℕ)) (b0 : List ℕ),
    WellFormed ballots → ballots.head? = some b0 → b0.length = m → 1 ≤ m →
    (∃ c, irv_winner ballots = .ok (some c)) ∧
      irvRounds ballots ≤ max 1 (m - 1) ∧ (m = 1 → irvRounds ballots = 1) := by
  intro m
  induction m using Nat.strong_induction_on with
  | _ m ih =>
    intro ballots b0 hW h0 hlen hm
    rcases ballots with _ | ⟨c0, rest⟩
    · cases h0
    · obtain rfl : c0 = b0 := Option.some.inj h0
      have hlenb : ∀ b ∈ c0 :: rest, b.length = m := by
        intro b hb
        rw [← hlen]
        exact (hW.2 b hb).length_eq
      have hne : ∀ b ∈ c0 :: rest, b ≠ [] := by
        intro b hb he
        have hbm := hlenb b hb
        rw [he] at hbm
        simp at hbm
        omega
      obtain ⟨fc, hfc, hfclen, _⟩ := firstChoices_isSome (c0 :: rest) hne
      have hfcne : fc ≠ [] := by
        intro h'
        rw [h'] at hfclen
        simp at hfclen
      have hfcmem : ∀ c ∈ fc, c ∈ c0 := by
        intro c hc
        rcases firstChoices_mem _ _ hfc c hc with ⟨b, hb, t, hbt⟩
        have hcb : c ∈ b := by
          rw [hbt]
          exact List.mem_cons_self _ _
        exact (hW.2 b hb).mem_iff.mp hcb
      rcases hfind : (uniqueKeys fc).find? (fun c => fc.length < 2 * fc.count c) with _ | c
      case some =>
        have hwin : irv_winner (c0 :: rest) = .ok (some c) := by
          rw [irv_winner_eq]
          simp only [hfc, hfind]
        have hrounds : irvRounds (c0 :: rest) = 1 := by
          rw [irvRounds_eq]
          simp only [hfc, hfind]
        exact ⟨⟨c, hwin⟩, by rw [hrounds]; exact le_max_left _ _, fun _ => hrounds⟩
      case none =>
        have hm1 : m ≠ 1 := by
          intro hm1
          rcases c0 with _ | ⟨x, xs⟩
          · simp at hlen
            omega
          · have hxs : xs = [] := by
              rw [List.length_cons, hm1] at hlen
              exact List.length_eq_zero.mp (by omega)
            subst hxs
            have hall : ∀ y ∈ fc, y = x := by
              intro y hy
              have := hfcmem y hy
              simpa using this
            have huk : uniqueKeys fc = [x] := uniqueKeys_const hfcne hall
            have hcount : fc.count x = fc.length :=
              List.count_eq_length.mpr (fun b hb => (hall b hb).symm)
            have hpred : fc.length < 2 * fc.count x := by
              rw [hcount]
              have : fc.length ≠ 0 := fun h' => hfcne (List.length_eq_zero.mp h')
              omega
            rw [huk, List.find?_cons_of_pos _ (by simpa using hpred)] at hfind
            cases hfind
        have hm2 : 2 ≤ m := by omega
        obtain ⟨lowest, hlow⟩ :
            ∃ l, pyArgMin (fun c => fc.count c) (uniqueKeys fc) = some l := by
          rcases hul : uniqueKeys fc with _ | ⟨u, us⟩
          · exact absurd hul (uniqueKeys_ne_nil hfcne)
          · exact ⟨us.foldl (fun m k => if fc.count k < fc.count m then k else m) u, rfl⟩
        have hlmem : lowest ∈ c0 := hfcmem lowest (mem_of_mem_uniqueKeys (pyArgMin_mem hlow))
        have hW' : WellFormed ((c0.filter (fun x => x != lowest)) :: remove_candidate rest lowest) := by
          have := WellFormed_remove hW lowest
          simpa [remove_candidate] using this
        have hlen' : (c0.filter (fun x => x != lowest)).length = m - 1 := by
          have herase := hW.1.erase_eq_filter lowest
          rw [← herase, List.length_erase_of_mem hlmem, hlen]
        rcases Nat.lt_or_ge m 3 with hm3 | hm3
        · have hlen1 : (c0.filter (fun x => x != lowest)).length = 1 := by
            rw [hlen']
            omega
          have hwin : irv_winner (c0 :: rest)
              = .ok (some ((c0.filter (fun x => x != lowest)).headD 0)) := by
            rw [irv_winner_eq]
            simp only [hfc, hfind, hlow, remove_candidate, List.map_cons]
            rw [if_pos hlen1]
          have hrounds : irvRounds (c0 :: rest) = 1 := by
            rw [irvRounds_eq]
            simp only [hfc, hfind, hlow, remove_candidate, List.map_cons]
            rw [if_pos hlen1]
          exact ⟨⟨_, hwin⟩, by rw [hrounds]; exact le_max_left _ _, fun h1 => absurd h1 hm1⟩
        · have hlen1' : ¬ ((c0.filter (fun x => x != lowest)).length = 1) := by
            rw [hlen']
            omega
          have ihapp := ih (m - 1) (by omega)
            ((c0.filter (fun x => x != lowest)) :: remove_candidate rest lowest)
            (c0.filter (fun x => x != lowest)) hW' rfl hlen' (by omega)
          rcases ihapp with ⟨⟨c, hc⟩, hr, _⟩
          have hwin : irv_winner (c0 :: rest) = .ok (some c) := by
            rw [irv_winner_eq]
            simp only [hfc, hfind, hlow, remove_candidate, List.map_cons]
            rw [if_neg hlen1']
            exact hc
          have hrounds : irvRounds (c0 :: rest)
              = 1 + irvRounds ((c0.filter (fun x => x != lowest)) :: remove_candidate rest lowest) := by
            rw [irvRounds_eq]
            simp only [hfc, hfind, hlow, remove_candidate, List.map_cons]
            rw [if_neg hlen1']
          refine ⟨⟨c, hwin⟩, ?_, fun h1 => absurd h1 hm1⟩
          rw [hrounds]
          have hr2 : irvRounds ((c0.filter (fun x => x != lowest)) :: remove_candidate rest lowest)
              ≤ m - 2 := by
            rw [show m - 1 - 1 = m - 2 from by omega] at hr
            exact le_trans hr (le_of_eq (Nat.max_eq_right (by omega)))
          rw [Nat.max_eq_right (by omega : 1 ≤ m - 1)]
          omega

/-- C6 witness: a three-candidate election where IRV succeeds within two
rounds. -/
theorem C6_witness :
    WellFormed [[0,1,2],[1,0,2],[2,1,0]] ∧
      ([[0,1,2],[1,0,2],[2,1,0]] : List (List ℕ)).head? = some [0,1,2] ∧
      ([0,1,2] : List ℕ).length = 3 ∧ 1 ≤ 3 ∧
      ((∃ c, irv_winner [[0,1,2],[1,0,2],[2,1,0]] = .ok (some c)) ∧
        irvRounds [[0,1,2],[1,0,2],[2,1,0]] ≤ max 1 (3 - 1) ∧
        (3 = 1 → irvRounds [[0,1,2],[1,0,2],[2,1,0]] = 1)) :=
  ⟨by decide, rfl, by decide, by decide,
    C6_irv_terminates 3 [[0,1,2],[1,0,2],[2,1,0]] [0,1,2] (by decide) rfl rfl (by decide)⟩
